import Mathlib

/-!
# keyvalue-store-go: the store actor and the persistence engine

A shallow embedding of `service.go` (the listener loop of `StartApiOperationListener`)
and of `persistance.go` (`Persist`, `DeleteOldFiles`, `RestoreFromPersistance`,
`CheckIfHashIsSame`), followed by the properties proved about them.

Modelling conventions.

* A Go `string` is the list of its code points (`GoString`).  Every key and value that
  reaches the store was produced by `encoding/json`, which only yields valid UTF-8, so
  nothing the service can hold is lost; byte-wise comparison of valid UTF-8 is
  comparison of code-point lists.  A `[]byte` is a list of numbers (`Bytes`).
* A `map[string]string` is the list of its entries in strictly increasing key order
  (`Dict`): equal maps have equal representations and `len`, lookup and assignment are
  the usual ones.  The order is also the order in which `json.Marshal` emits the keys.
* Go maps are references.  `ServiceX.heap` holds the map objects, `ServiceX.dict` is
  the reference stored in the field `s.dict`, and the channel towards the persistence
  worker carries references, exactly as `s.persistance.persistanceChan <- s.dict` does.
  A reference may be nil: a nil map reads as an empty one, is serialized as `null`, and
  an assignment to one of its entries panics (`GoMap`, `ServiceX.deref`).
* A panic is the result `none`.  In the goroutine of the listener it is recovered
  nowhere and ends the program.
* The `select` of the listener loop is rendered by the list of events it picks; the two
  reply channels of an operation by the `Reply` computed for it.
* The directory `os.TempDir()` is the list of its entries in `Readdir` order, a file
  created by `os.OpenFile` coming last; names are relative to that directory.  The clock
  reading `time.Now().Unix()` of a call and its I/O failures (`Faults`) are arguments.
* `encoding/json`, `hash/fnv`, `strings` and `strconv` are rendered for the calls the
  engine makes: `json.Marshal` and `json.Unmarshal` on a `map[string]string`
  (`jsonMarshal` writes control characters other than line feed, carriage return and tab
  as `\u00XX`, as the Go releases before 1.22 do; `jsonUnmarshal` reads both forms),
  `fnv.New32a`, `strings.Replace` with a non-empty pattern and `strconv.ParseUint` and
  `strconv.FormatInt` in base 10.
-/

namespace KeyValueStore

/-! ## Strings and maps -/

/-- A Go `string`, as the list of its code points. -/
abbrev GoString := List Char

/-- Assignment `m[k] = v` on an ordered entry list: the entry is put in key order,
replacing an existing entry for the same key. -/
def insertEntry (k v : GoString) : List (GoString × GoString) → List (GoString × GoString)
  | [] => [(k, v)]
  | (k', v') :: rest =>
    if k < k' then (k, v) :: (k', v') :: rest
    else if k = k' then (k, v) :: rest
    else (k', v') :: insertEntry k v rest

/-- The comma-ok lookup `v, ok := m[k]` on an entry list. -/
def lookupEntry (k : GoString) : List (GoString × GoString) → Option GoString
  | [] => none
  | (k', v') :: rest => if k = k' then some v' else lookupEntry k rest

/-- Entries sorted by strictly increasing key. -/
def Ordered (l : List (GoString × GoString)) : Prop :=
  l.Pairwise (fun a b => a.1 < b.1)

theorem insertEntry_keys (k v : GoString) (l : List (GoString × GoString))
    (x : GoString × GoString) (hx : x ∈ insertEntry k v l) : x = (k, v) ∨ x ∈ l := by
  induction l with
  | nil => simpa [insertEntry] using hx
  | cons a t ih =>
    obtain ⟨k', v'⟩ := a
    by_cases h1 : k < k'
    · simp only [insertEntry, h1, if_true, List.mem_cons] at hx
      rcases hx with h | h | h
      · exact Or.inl h
      · exact Or.inr (by simp [h])
      · exact Or.inr (by simp [h])
    · by_cases h2 : k = k'
      · subst h2
        have hlt : ¬ k < k := lt_irrefl k
        simp only [insertEntry, hlt, if_true, if_false, List.mem_cons] at hx
        rcases hx with h | h
        · exact Or.inl h
        · exact Or.inr (by simp [h])
      · simp only [insertEntry, h1, h2, if_false, List.mem_cons] at hx
        rcases hx with h | h
        · exact Or.inr (by simp [h])
        · rcases ih h with h' | h'
          · exact Or.inl h'
          · exact Or.inr (by simp [h'])

theorem insertEntry_ordered (k v : GoString) (l : List (GoString × GoString))
    (hl : Ordered l) : Ordered (insertEntry k v l) := by
  induction l with
  | nil => simp [insertEntry, Ordered]
  | cons a t ih =>
    obtain ⟨k', v'⟩ := a
    have hl' : (∀ b ∈ t, k' < b.1) ∧ Ordered t := by
      simpa [Ordered, List.pairwise_cons] using hl
    by_cases h1 : k < k'
    · simp only [insertEntry, h1, if_true]
      refine List.Pairwise.cons ?_ hl
      intro b hb
      rcases List.mem_cons.mp hb with h | h
      · simpa [h] using h1
      · exact lt_trans h1 (hl'.1 b h)
    · by_cases h2 : k = k'
      · subst h2
        simp only [insertEntry, h1, if_true, if_false, Ordered, List.pairwise_cons]
        exact ⟨hl'.1, hl'.2⟩
      · simp only [insertEntry, h1, h2, if_false, Ordered, List.pairwise_cons]
        refine ⟨?_, ih hl'.2⟩
        intro b hb
        rcases insertEntry_keys k v t b hb with h | h
        · rw [h]
          exact lt_of_le_of_ne (not_lt.mp h1) (Ne.symm h2)
        · exact hl'.1 b h

/-- A `map[string]string`: its entries in strictly increasing key order. -/
structure Dict where
  entries : List (GoString × GoString)
  ordered : Ordered entries

namespace Dict

/-- The map built by `make(map[string]string)`. -/
def empty : Dict := ⟨[], List.Pairwise.nil⟩

/-- The comma-ok lookup `v, ok := m[k]`: `none` when `ok` is false. -/
def get? (m : Dict) (k : GoString) : Option GoString := lookupEntry k m.entries

/-- The assignment `m[k] = v`. -/
def set (m : Dict) (k v : GoString) : Dict :=
  ⟨insertEntry k v m.entries, insertEntry_ordered k v m.entries m.ordered⟩

/-- The map literal `map[string]string{k: v}`. -/
def single (k v : GoString) : Dict := empty.set k v

/-- The builtin `len(m)`. -/
def len (m : Dict) : Nat := m.entries.length

end Dict

theorem Dict.ext_entries (a b : Dict) (h : a.entries = b.entries) : a = b := by
  cases a; cases b; cases h; rfl

instance : DecidableEq Dict := fun a b =>
  decidable_of_iff (a.entries = b.entries)
    ⟨Dict.ext_entries a b, fun h => by rw [h]⟩

/-- A value of type `map[string]string` together with what it holds: the nil map, or a map
object with its entries. -/
inductive GoMap where
  | nil
  | object (m : Dict)
deriving DecidableEq

/-- What reading a map gives.  A nil map reads as an empty one: every lookup misses, `len`
is 0 and there is no key. -/
def GoMap.content : GoMap → Dict
  | GoMap.nil => Dict.empty
  | GoMap.object m => m

/-! ## The store actor (`service.go`) -/

/-- The operation enum `APIOPERATION`, an `int`. -/
abbrev APIOPERATION := Int

/-- Enum value `CREATE`. -/
def CREATE : APIOPERATION := 0

/-- Enum value `GET`. -/
def GET : APIOPERATION := 1

/-- Enum value `DELETEALL`. -/
def DELETEALL : APIOPERATION := 2

/-- The request fields of `ApiOperation`.  Its two reply channels `respData` and `ack`
are rendered by the `Reply` that the listener produces for the operation. -/
structure ApiOperation where
  oper : APIOPERATION
  key : GoString
  value : GoString

/-- What the listener sends back for one operation: the map sent on `apiOp.respData`
(`none` when nothing is sent on it) and the boolean sent on `apiOp.ack`. -/
structure Reply where
  respData : Option Dict
  ack : Bool
deriving DecidableEq

/-- The fields of `FSPersistance`: the references queued on `persistanceChan`, oldest
first (`none` is the nil map), and `latesHash`, a `uint32`.  The ticker is rendered by
the `tick` event. -/
structure FSPersistance where
  persistanceChan : List (Option Nat)
  latesHash : Nat

/-- The engine `NewPersistance` returns: an empty channel and the zero `latesHash`. -/
def NewPersistance : FSPersistance := { persistanceChan := [], latesHash := 0 }

/-- The fields of `ServiceX` and the map objects they refer to.  `heap a` is the content
of the map object at reference `a`, `nextAddr` the first unused reference, `dict` the
reference held by `s.dict` (`none` when `s.dict` is the nil map), and `persistance` the
engine `s.persistance` points to. -/
structure ServiceX where
  heap : Nat → Dict
  nextAddr : Nat
  dict : Option Nat
  persistance : FSPersistance

/-- The map value behind a reference: the nil map, or the map object with the content it
has now. -/
def ServiceX.deref (s : ServiceX) : Option Nat → GoMap
  | none => GoMap.nil
  | some a => GoMap.object (s.heap a)

/-- The mapping the store holds: what reading `s.dict` gives. -/
def ServiceX.mapping (s : ServiceX) : Dict := (s.deref s.dict).content

/-- A service whose `s.dict` is one map object with content `m` and whose channel is
empty. -/
def ServiceX.start (m : Dict) : ServiceX :=
  { heap := fun _ => m, nextAddr := 1, dict := some 0, persistance := NewPersistance }

/-- The two event sources of the `select` in the listener loop. -/
inductive Event where
  | tick
  | operation (apiOp : ApiOperation)

/-- The `case apiOp := <-s.operationChan` branch of the listener loop.  The result is
`none` when the branch panics: the assignment `s.dict[apiOp.key] = apiOp.value` on a nil
map does, and the panic, raised in the goroutine of the listener and recovered nowhere,
ends the program before anything is sent back. -/
def handleOperation (s : ServiceX) (apiOp : ApiOperation) : Option (ServiceX × Reply) :=
  if apiOp.oper = CREATE then
    match s.dict with
    | none => none
    | some a =>
      some ({ s with heap := Function.update s.heap a ((s.heap a).set apiOp.key apiOp.value) },
        { respData := none, ack := true })
  else if apiOp.oper = GET then
    match s.mapping.get? apiOp.key with
    | some v => some (s, { respData := some (Dict.single apiOp.key v), ack := true })
    | none => some (s, { respData := none, ack := false })
  else if apiOp.oper = DELETEALL then
    some ({ s with heap := Function.update s.heap s.nextAddr Dict.empty,
                   nextAddr := s.nextAddr + 1,
                   dict := some s.nextAddr },
      { respData := none, ack := true })
  else
    some (s, { respData := none, ack := false })

/-- The `case t := <-s.persistance.ticker.C` branch: the reference `s.dict` is sent on
the channel towards the persistence worker. -/
def handleTick (s : ServiceX) : ServiceX :=
  { s with persistance :=
      { s.persistance with persistanceChan := s.persistance.persistanceChan ++ [s.dict] } }

/-- One iteration of the listener loop on the event that `select` picked: the state
after it and the reply sent, if any.  `none` when the iteration panics. -/
def listenerStep (s : ServiceX) : Event → Option (ServiceX × Option Reply)
  | Event.tick => some (handleTick s, none)
  | Event.operation apiOp =>
    match handleOperation s apiOp with
    | none => none
    | some r => some (r.1, some r.2)

/-- The loop of `StartApiOperationListener` run on the events that `select` picks, in
turn: the state of the service after them, `none` when one of them made the loop
panic. -/
def StartApiOperationListener (s : ServiceX) : List Event → Option ServiceX
  | [] => some s
  | e :: es =>
    match listenerStep s e with
    | none => none
    | some r => StartApiOperationListener r.1 es

/-- The replies the listener loop sends while processing the events, in order, up to the
end of the events or to the panic that ends the program. -/
def listenerReplies (s : ServiceX) : List Event → List Reply
  | [] => []
  | e :: es =>
    match listenerStep s e with
    | none => []
    | some (s', some r) => r :: listenerReplies s' es
    | some (s', none) => listenerReplies s' es

/-- The operation the `Create` handler submits. -/
def createOp (k v : GoString) : ApiOperation := { oper := CREATE, key := k, value := v }

/-- The operation the `Get` handler submits (its `value` field is left at its zero value). -/
def getOp (k : GoString) : ApiOperation := { oper := GET, key := k, value := [] }

/-- The operation the `DeleteAll` handler submits. -/
def deleteAllOp : ApiOperation := { oper := DELETEALL, key := [], value := [] }

/-- The event is a `CREATE` operation on key `k`. -/
def Event.isCreateOn (k : GoString) : Event → Prop
  | Event.tick => False
  | Event.operation a => a.oper = CREATE ∧ a.key = k

/-- The event is a `DELETEALL` operation. -/
def Event.isDeleteAll : Event → Prop
  | Event.tick => False
  | Event.operation a => a.oper = DELETEALL

/-- The `CREATE` events for a list of key/value pairs, in list order. -/
def createEvents (l : List (GoString × GoString)) : List Event :=
  l.map (fun kv => Event.operation (createOp kv.1 kv.2))

/-! ## The persistence engine (`persistance.go`) -/

/-- A `[]byte`, one number per byte. -/
abbrev Bytes := List Nat

/-- The bytes of one code point in a Go string (`utf8.EncodeRune`). -/
def utf8EncodeChar (c : Char) : Bytes :=
  if c.toNat < 0x80 then [c.toNat]
  else if c.toNat < 0x800 then [0xC0 + c.toNat / 0x40, 0x80 + c.toNat % 0x40]
  else if c.toNat < 0x10000 then
    [0xE0 + c.toNat / 0x1000, 0x80 + c.toNat / 0x40 % 0x40, 0x80 + c.toNat % 0x40]
  else
    [0xF0 + c.toNat / 0x40000, 0x80 + c.toNat / 0x1000 % 0x40, 0x80 + c.toNat / 0x40 % 0x40,
      0x80 + c.toNat % 0x40]

/-- The conversion `[]byte(s)`. -/
def utf8Encode : GoString → Bytes
  | [] => []
  | c :: cs => utf8EncodeChar c ++ utf8Encode cs

/-- A UTF-8 continuation byte. -/
def isCont (b : Nat) : Bool := decide (0x80 ≤ b ∧ b ≤ 0xBF)

/-- The code point `unicode.ReplacementChar`, U+FFFD. -/
def replacementChar : Char := Char.ofNat 0xFFFD

/-- The decoder `utf8.DecodeRune`: the code point at the front of the bytes and its width in
bytes; an ill-formed or truncated sequence yields U+FFFD of width 1.  A byte that is
missing is read as 0, which is no continuation byte. -/
def utf8DecodeRune : Bytes → Char × Nat
  | [] => (replacementChar, 0)
  | b0 :: rest =>
    if b0 < 0x80 then (Char.ofNat b0, 1)
    else if 0xC2 ≤ b0 ∧ b0 ≤ 0xDF ∧ isCont (rest.getD 0 0) = true then
      (Char.ofNat ((b0 - 0xC0) * 0x40 + (rest.getD 0 0 - 0x80)), 2)
    else if 0xE0 ≤ b0 ∧ b0 ≤ 0xEF ∧ isCont (rest.getD 0 0) = true
        ∧ isCont (rest.getD 1 0) = true
        ∧ (b0 = 0xE0 → 0xA0 ≤ rest.getD 0 0) ∧ (b0 = 0xED → rest.getD 0 0 ≤ 0x9F) then
      (Char.ofNat ((b0 - 0xE0) * 0x1000 + (rest.getD 0 0 - 0x80) * 0x40
        + (rest.getD 1 0 - 0x80)), 3)
    else if 0xF0 ≤ b0 ∧ b0 ≤ 0xF4 ∧ isCont (rest.getD 0 0) = true
        ∧ isCont (rest.getD 1 0) = true ∧ isCont (rest.getD 2 0) = true
        ∧ (b0 = 0xF0 → 0x90 ≤ rest.getD 0 0) ∧ (b0 = 0xF4 → rest.getD 0 0 ≤ 0x8F) then
      (Char.ofNat ((b0 - 0xF0) * 0x40000 + (rest.getD 0 0 - 0x80) * 0x1000
        + (rest.getD 1 0 - 0x80) * 0x40 + (rest.getD 2 0 - 0x80)), 4)
    else (replacementChar, 1)

/-- Decoding of a byte sequence code point by code point, the first argument counting the
bytes still to skip of the code point decoded last. -/
def utf8DecodeFrom : Nat → Bytes → GoString
  | _, [] => []
  | skip + 1, _ :: bs => utf8DecodeFrom skip bs
  | 0, b :: bs => (utf8DecodeRune (b :: bs)).1 :: utf8DecodeFrom ((utf8DecodeRune (b :: bs)).2 - 1) bs

/-- The code points of a byte sequence as `encoding/json` reads them: every byte that does
not start a well-formed UTF-8 sequence becomes U+FFFD. -/
def utf8Decode (bs : Bytes) : GoString := utf8DecodeFrom 0 bs

/-- The table `hex = "0123456789abcdef"` of `encoding/json`. -/
def hexDigit : Nat → Char
  | 0 => '0' | 1 => '1' | 2 => '2' | 3 => '3' | 4 => '4' | 5 => '5' | 6 => '6' | 7 => '7'
  | 8 => '8' | 9 => '9' | 10 => 'a' | 11 => 'b' | 12 => 'c' | 13 => 'd' | 14 => 'e'
  | _ => 'f'

/-- How `json.Marshal` writes one code point of a string: `"` and `\` behind a backslash,
line feed, carriage return and tab as `\n`, `\r`, `\t`, the other control characters and
`<`, `>`, `&` as `\u00XX`, U+2028 and U+2029 as `\u202X`, everything else as itself. -/
def encodeChar (c : Char) : List Char :=
  if c = '"' ∨ c = '\\' then ['\\', c]
  else if c = '\n' then ['\\', 'n']
  else if c = '\r' then ['\\', 'r']
  else if c = '\t' then ['\\', 't']
  else if c.toNat < 0x20 ∨ c = '<' ∨ c = '>' ∨ c = '&' then
    ['\\', 'u', '0', '0', hexDigit (c.toNat / 16), hexDigit (c.toNat % 16)]
  else if c.toNat = 0x2028 ∨ c.toNat = 0x2029 then
    ['\\', 'u', '2', '0', '2', hexDigit (c.toNat % 16)]
  else [c]

/-- The escaped content of a JSON string literal, without the enclosing quotes. -/
def encodeBody : GoString → List Char
  | [] => []
  | c :: cs => encodeChar c ++ encodeBody cs

/-- A JSON string literal. -/
def encodeString (s : GoString) : List Char := '"' :: (encodeBody s ++ ['"'])

/-- The members of a JSON object, separated by commas, in the order of the entries. -/
def encodeEntries : List (GoString × GoString) → List Char
  | [] => []
  | [kv] => encodeString kv.1 ++ ':' :: encodeString kv.2
  | kv :: kv' :: rest =>
    encodeString kv.1 ++ ':' :: encodeString kv.2 ++ ',' :: encodeEntries (kv' :: rest)

/-- The text `json.Marshal` produces for a map object: one JSON object, keys sorted. -/
def marshalText (m : Dict) : List Char := '{' :: (encodeEntries m.entries ++ ['}'])

/-- An error of `encoding/json`. -/
inductive JsonError where
  | marshal
  | unmarshal
deriving DecidableEq

deriving instance DecidableEq for Except

/-- The text `json.Marshal` produces for a value of type `map[string]string`: `null` for
the nil map, the object of its entries for a map object. -/
def marshalValue : GoMap → List Char
  | GoMap.nil => ['n', 'u', 'l', 'l']
  | GoMap.object m => marshalText m

/-- The call `json.Marshal(*dict)` for a `map[string]string`.  It has no failing case for
this type; the error branch of the caller is kept all the same. -/
def jsonMarshal (m : GoMap) : Except JsonError Bytes := Except.ok (utf8Encode (marshalValue m))

/-- The value of a hexadecimal digit, either case. -/
def hexVal (c : Char) : Option Nat :=
  if 48 ≤ c.toNat ∧ c.toNat ≤ 57 then some (c.toNat - 48)
  else if 97 ≤ c.toNat ∧ c.toNat ≤ 102 then some (c.toNat - 87)
  else if 65 ≤ c.toNat ∧ c.toNat ≤ 70 then some (c.toNat - 55)
  else none

/-- The number written by four hexadecimal digits. -/
def hex4 (a b c d : Char) : Option Nat :=
  match hexVal a, hexVal b, hexVal c, hexVal d with
  | some x, some y, some z, some w => some (x * 4096 + y * 256 + z * 16 + w)
  | _, _, _, _ => none

/-- The character a one-letter escape stands for. -/
def simpleEscape (e : Char) : Option Char :=
  if e = '"' then some '"'
  else if e = '\\' then some '\\'
  else if e = '/' then some '/'
  else if e = 'b' then some (Char.ofNat 8)
  else if e = 'f' then some (Char.ofNat 12)
  else if e = 'n' then some '\n'
  else if e = 'r' then some '\r'
  else if e = 't' then some '\t'
  else none

/-- Puts a decoded code point in front of the rest of a decoded string. -/
def pushChar (c : Char) : Option (GoString × List Char) → Option (GoString × List Char)
  | some (s, rest) => some (c :: s, rest)
  | none => none

/-- Reads the escape that follows a backslash inside a string literal: the code point it
stands for and the number of characters it takes up after the backslash.  A `\u` escape of
a surrogate is combined with a following low surrogate escape when the two form a pair
and is read as U+FFFD otherwise, as `unquote` does with `utf16.DecodeRune`. -/
def readEscape : List Char → Option (Char × Nat)
  | [] => none
  | e :: rest1 =>
    if e = 'u' then
      match rest1 with
      | a :: b :: c2 :: d :: rest2 =>
        match hex4 a b c2 d with
        | none => none
        | some rr =>
          if 0xD800 ≤ rr ∧ rr < 0xE000 then
            match rest2 with
            | x :: y :: a' :: b' :: c' :: d' :: _ =>
              match hex4 a' b' c' d' with
              | some rr1 =>
                if x = '\\' ∧ y = 'u' ∧ rr < 0xDC00 ∧ 0xDC00 ≤ rr1 ∧ rr1 < 0xE000 then
                  some (Char.ofNat (0x10000 + (rr - 0xD800) * 0x400 + (rr1 - 0xDC00)), 11)
                else some (replacementChar, 5)
              | none => some (replacementChar, 5)
            | _ => some (replacementChar, 5)
          else some (Char.ofNat rr, 5)
      | _ => none
    else
      match simpleEscape e with
      | some ch => some (ch, 1)
      | none => none

/-- Reads a JSON string literal from just after its opening quote: the decoded string and
the text after the closing quote.  The first argument counts the characters still to
skip of the escape read last.  A raw control character, an unknown escape or a missing
closing quote is an error. -/
def unquoteFrom : Nat → List Char → Option (GoString × List Char)
  | _, [] => none
  | skip + 1, _ :: rest => unquoteFrom skip rest
  | 0, c :: rest =>
    if c = '"' then some ([], rest)
    else if c = '\\' then
      match readEscape rest with
      | some (ch, width) => pushChar ch (unquoteFrom width rest)
      | none => none
    else if c.toNat < 0x20 then none
    else pushChar c (unquoteFrom 0 rest)

/-- Reads a JSON string literal from just after its opening quote. -/
def unquoteBody (cs : List Char) : Option (GoString × List Char) := unquoteFrom 0 cs

/-- JSON white space: space, tab, carriage return, line feed. -/
def isSpace (c : Char) : Bool := c = ' ' || c = '\t' || c = '\r' || c = '\n'

/-- Drops leading white space. -/
def skipSpace : List Char → List Char
  | [] => []
  | c :: cs => if isSpace c = true then skipSpace cs else c :: cs

/-- Reads a member value that a `string` element accepts: a string literal, or `null`,
which leaves the element at its zero value `""`.  Any other value makes `Unmarshal`
return an error. -/
def decodeValue : List Char → Option (GoString × List Char)
  | [] => none
  | c :: rest =>
    if c = '"' then unquoteBody rest
    else
      match c :: rest with
      | a :: b :: c3 :: d :: rest4 =>
        if a = 'n' ∧ b = 'u' ∧ c3 = 'l' ∧ d = 'l' then some ([], rest4) else none
      | _ => none

/-- Reads the members of an object from the opening quote of a key up to and including
the closing brace, assigning each member to the map in turn (a repeated key keeps its last
value).  The first argument bounds the number of members read. -/
def decodeMembers : Nat → List Char → Dict → Option (Dict × List Char)
  | 0, _, _ => none
  | fuel + 1, cs, m =>
    match cs with
    | [] => none
    | q :: r0 =>
      if q = '"' then
        match unquoteBody r0 with
        | none => none
        | some (k, r1) =>
          match skipSpace r1 with
          | [] => none
          | colon :: r2 =>
            if colon = ':' then
              match decodeValue (skipSpace r2) with
              | none => none
              | some (v, r3) =>
                match skipSpace r3 with
                | [] => none
                | sep :: r4 =>
                  if sep = ',' then decodeMembers fuel (skipSpace r4) (m.set k v)
                  else if sep = '}' then some (m.set k v, r4)
                  else none
            else none
      else none

/-- Reads a whole document into a nil `map[string]string`, with white space allowed
around every token and nothing else after the value: an object whose member values are
strings or `null` gives a new map object with its members; the document `null` leaves
the destination the nil map it was; anything else is an error (`none`). -/
def decodeDocument (cs : List Char) : Option GoMap :=
  match skipSpace cs with
  | [] => none
  | c :: r =>
    if c = '{' then
      match skipSpace r with
      | [] => none
      | c' :: r' =>
        if c' = '}' then (if skipSpace r' = [] then some (GoMap.object Dict.empty) else none)
        else
          match decodeMembers (c' :: r').length (c' :: r') Dict.empty with
          | some (m, r'') => if skipSpace r'' = [] then some (GoMap.object m) else none
          | none => none
    else
      match c :: r with
      | a :: b :: c3 :: d :: rest4 =>
        if a = 'n' ∧ b = 'u' ∧ c3 = 'l' ∧ d = 'l' ∧ skipSpace rest4 = [] then some GoMap.nil
        else none
      | _ => none

/-- The call `json.Unmarshal(buf, &dict)` of `RestoreFromPersistance`, `dict` being the
nil map that `var dict map[string]string` declares. -/
def jsonUnmarshal (buf : Bytes) : Except JsonError GoMap :=
  match decodeDocument (utf8Decode buf) with
  | some m => Except.ok m
  | none => Except.error JsonError.unmarshal

/-- The 32-bit FNV-1a hash `fnv.New32a()` of a byte sequence: offset basis 2166136261,
and for every byte an exclusive or followed by a multiplication by the prime 16777619 in
`uint32`. -/
def fnv32a (buf : Bytes) : Nat :=
  buf.foldl (fun h b => (Nat.xor h b * 16777619) % 4294967296) 2166136261

/-- The function `CheckIfHashIsSame`: whether the hash of `buf` is the retained one, and
that hash. -/
def CheckIfHashIsSame (p : FSPersistance) (buf : Bytes) : Bool × Nat :=
  if p.latesHash = fnv32a buf then (true, fnv32a buf) else (false, fnv32a buf)


/-- The call `strings.HasPrefix(s, prefix)`. -/
def HasPrefix (s pre : GoString) : Bool := pre.isPrefixOf s

/-- The call `strings.HasSuffix(s, suffix)`. -/
def HasSuffix (s suf : GoString) : Bool := suf.isSuffixOf s

/-- Scanning loop of `strings.Replace` for a non-empty `old`: `skip` counts the characters
still to drop of the occurrence found last, `n` the replacements still allowed. -/
def replaceFrom (old new : GoString) : Nat → Nat → GoString → GoString
  | _, _, [] => []
  | skip + 1, n, _ :: cs => replaceFrom old new skip n cs
  | 0, 0, c :: cs => c :: cs
  | 0, n + 1, c :: cs =>
    if old.isPrefixOf (c :: cs) = true then new ++ replaceFrom old new (old.length - 1) n cs
    else c :: replaceFrom old new 0 (n + 1) cs

/-- The call `strings.Replace(s, old, new, n)` for a non-empty `old` and `n ≥ 0`: the
first `n` non-overlapping occurrences of `old`, from the left, are replaced by `new`. -/
def Replace (s old new : GoString) (n : Nat) : GoString := replaceFrom old new 0 n s

/-- The largest `uint64`. -/
def maxUint64 : Nat := 18446744073709551615

/-- The digit loop of `strconv.ParseUint(s, 10, 64)` on the remaining characters, `n` being
the value read so far: the value and whether the parse succeeded.  A character that is
not a decimal digit stops the loop with `0` (syntax error); a value that no longer fits
stops it with the largest `uint64` (range error). -/
def parseUintLoop : List Char → Nat → Nat × Bool
  | [], n => (n, true)
  | c :: cs, n =>
    if 48 ≤ c.toNat ∧ c.toNat ≤ 57 then
      if n ≥ maxUint64 / 10 + 1 then (maxUint64, false)
      else if n * 10 + (c.toNat - 48) > maxUint64 then (maxUint64, false)
      else parseUintLoop cs (n * 10 + (c.toNat - 48))
    else (0, false)

/-- The call `strconv.ParseUint(s, 10, 64)`: the value and whether `err == nil`. -/
def ParseUint (s : GoString) : Nat × Bool :=
  match s with
  | [] => (0, false)
  | _ :: _ => parseUintLoop s 0

/-- The call `strconv.FormatInt(i, 10)`. -/
def FormatInt (i : Int) : GoString :=
  if i < 0 then '-' :: Nat.toDigits 10 i.natAbs else Nat.toDigits 10 i.toNat

/-- One entry of `os.TempDir()` as `Readdir` reports it (`Name()`, `IsDir()`), with the
content of the file.  File names are taken relative to `os.TempDir()`: every path the
engine handles is `filepath.Join(os.TempDir(), name)`, which is one-to-one on names. -/
structure DirEntry where
  name : GoString
  isDir : Bool
  content : Bytes
deriving DecidableEq

/-- A regular file of the directory, given by its name and its content as text. -/
def regularFile (name text : String) : DirEntry :=
  { name := name.data, isDir := false, content := utf8Encode text.data }

/-- A subdirectory of the directory, given by its name. -/
def subdirectory (name : String) : DirEntry :=
  { name := name.data, isDir := true, content := [] }

/-- The I/O failures of one call.  `openDir`: `os.Open(os.TempDir())` fails; `readdir`:
`dir.Readdir(0)` fails; `openFile`: `os.OpenFile` fails; `write`: `fmt.Fprintf` fails
after having written that many bytes; `remove name`: `os.Remove` of that file fails;
`readFile`: `ioutil.ReadFile` fails. -/
structure Faults where
  openDir : Bool
  readdir : Bool
  openFile : Bool
  write : Option Nat
  remove : GoString → Bool
  readFile : Bool

/-- No I/O failure. -/
def noFaults : Faults :=
  { openDir := false, readdir := false, openFile := false, write := none,
    remove := fun _ => false, readFile := false }

/-- The name `"GOAPP-" + strconv.FormatInt(time.Now().Unix(), 10) + ".json"` of the
snapshot written at Unix time `now`. -/
def snapshotName (now : Int) : GoString := "GOAPP-".data ++ FormatInt now ++ ".json".data

/-- The call `os.OpenFile(filename, os.O_RDWR|os.O_CREATE, 0660)`: `none` when it fails (an
I/O failure, or the name is a directory); an existing file is opened as it is, without
truncation; a missing file is created empty.  The result is the directory afterwards. -/
def openFile (io : Faults) (fs : List DirEntry) (filename : GoString) : Option (List DirEntry) :=
  if io.openFile = true then none
  else
    match fs.find? (fun e => decide (e.name = filename)) with
    | some e => if e.isDir = true then none else some fs
    | none => some (fs ++ [{ name := filename, isDir := false, content := [] }])

/-- Writing `data` at offset 0 of the open file: the bytes overwrite the start of the
content and what lay beyond them stays. -/
def writeAtStart (data : Bytes) (filename : GoString) (fs : List DirEntry) : List DirEntry :=
  fs.map (fun e =>
    if e.name = filename then { e with content := data ++ e.content.drop data.length } else e)

/-- The test of the loops in `DeleteOldFiles` and `RestoreFromPersistance`:
`strings.HasPrefix(v.Name(), "GOAPP") && strings.HasSuffix(v.Name(), ".json") && !v.IsDir()`. -/
def isSnapshotFile (v : DirEntry) : Bool :=
  HasPrefix v.name "GOAPP".data && HasSuffix v.name ".json".data && !v.isDir

/-- The call `os.Remove(filename)` on a file of the directory: `none` when it fails. -/
def removeFile (io : Faults) (fs : List DirEntry) (filename : GoString) :
    Option (List DirEntry) :=
  if io.remove filename = true then none
  else some (fs.filter (fun e => !decide (e.name = filename)))

/-- The loop of `DeleteOldFiles` over the listing `files`, `cur` being the directory as
the deletions so far have left it. -/
def deleteLoop (io : Faults) (newFilename : GoString) :
    List DirEntry → List DirEntry → List DirEntry
  | [], cur => cur
  | v :: files, cur =>
    if v.name ≠ newFilename ∧ isSnapshotFile v = true then
      match removeFile io cur v.name with
      | some cur' => deleteLoop io newFilename files cur'
      | none => deleteLoop io newFilename files cur
    else deleteLoop io newFilename files cur

/-- The function `DeleteOldFiles`: the directory it leaves. -/
def DeleteOldFiles (io : Faults) (fs : List DirEntry) (newFilename : GoString) : List DirEntry :=
  if io.openDir = true then fs
  else if io.readdir = true then fs
  else deleteLoop io newFilename fs fs

/-- What a call of `Persist` returns and leaves behind: the returned file name (`""` when
nothing was persisted), the engine and the directory. -/
structure PersistResult where
  filename : GoString
  engine : FSPersistance
  files : List DirEntry

/-- The function `Persist`, called at Unix time `now` on the map `dict` that it is handed,
with the engine `p` and the directory `fs`. -/
def Persist (p : FSPersistance) (io : Faults) (now : Int) (fs : List DirEntry) (dict : GoMap) :
    PersistResult :=
  match jsonMarshal dict with
  | Except.error _ => { filename := [], engine := p, files := fs }
  | Except.ok jsonStr =>
    if (CheckIfHashIsSame p jsonStr).1 = true then { filename := [], engine := p, files := fs }
    else
      match openFile io fs (snapshotName now) with
      | none => { filename := [], engine := p, files := fs }
      | some fs1 =>
        match io.write with
        | some n =>
          { filename := [], engine := p,
            files := writeAtStart ((jsonStr ++ [10]).take n) (snapshotName now) fs1 }
        | none =>
          { filename := snapshotName now,
            engine := { p with latesHash := (CheckIfHashIsSame p jsonStr).2 },
            files := DeleteOldFiles io (writeAtStart (jsonStr ++ [10]) (snapshotName now) fs1)
              (snapshotName now) }

/-- The hash `Persist` computes for a map: FNV-1a over its serialization. -/
def snapshotHash (m : GoMap) : Nat := fnv32a (utf8Encode (marshalValue m))

/-- The bytes `Persist` writes for a map: its serialization and a line feed. -/
def snapshotBytes (m : GoMap) : Bytes := utf8Encode (marshalValue m) ++ [10]

/-- The entries `DeleteOldFiles` removes: snapshot files other than the new one whose
removal does not fail. -/
def isDeleted (io : Faults) (newFilename : GoString) (v : DirEntry) : Bool :=
  decide (v.name ≠ newFilename) && isSnapshotFile v && !io.remove v.name

/-- The engine and the directory after `Persist` has been called, in turn, at each clock
reading on the mapping paired with it. -/
def persistRun (io : Faults) (p : FSPersistance) (fs : List DirEntry) :
    List (Int × GoMap) → FSPersistance × List DirEntry
  | [] => (p, fs)
  | c :: cs => persistRun io (Persist p io c.1 fs c.2).engine (Persist p io c.1 fs c.2).files cs

/-- The timestamp `RestoreFromPersistance` reads off a file name: `"GOAPP-"` (up to six
times) and `".json"` (up to four times) are cut out and the rest goes through
`strconv.ParseUint`, whose error is discarded. -/
def timestampOf (name : GoString) : Nat :=
  (ParseUint (Replace (Replace name "GOAPP-".data [] 6) ".json".data [] 4)).1

/-- The selection loop of `RestoreFromPersistance` over the remaining listing, from the
current `latestFile` and `latestTs`. -/
def selectLatest : List DirEntry → GoString × Nat → GoString × Nat
  | [], acc => acc
  | v :: files, (latestFile, latestTs) =>
    if isSnapshotFile v = true then
      if timestampOf v.name > latestTs then selectLatest files (v.name, timestampOf v.name)
      else selectLatest files (latestFile, latestTs)
    else selectLatest files (latestFile, latestTs)

/-- The ways `RestoreFromPersistance` returns a non-nil error: the directory cannot be
opened or listed, no file was selected, the selected file cannot be read, its content
cannot be unmarshalled. -/
inductive RestoreError where
  | openDir
  | readdir
  | notFound
  | readFile
  | unmarshal
deriving DecidableEq

/-- The call `ioutil.ReadFile(filename)` on a file of the directory. -/
def readFile (io : Faults) (fs : List DirEntry) (filename : GoString) : Option Bytes :=
  if io.readFile = true then none
  else
    match fs.find? (fun e => decide (e.name = filename)) with
    | some e => if e.isDir = true then none else some e.content
    | none => none

/-- What `RestoreFromPersistance` does once a file has been selected: read it and
unmarshal its content. -/
def readSnapshot (io : Faults) (fs : List DirEntry) (latestFile : GoString) :
    Except RestoreError GoMap :=
  match readFile io fs latestFile with
  | none => Except.error RestoreError.readFile
  | some buf =>
    match jsonUnmarshal buf with
    | Except.error _ => Except.error RestoreError.unmarshal
    | Except.ok dict => Except.ok dict

/-- The function `RestoreFromPersistance` on the directory `fs`. -/
def RestoreFromPersistance (io : Faults) (fs : List DirEntry) : Except RestoreError GoMap :=
  if io.openDir = true then Except.error RestoreError.openDir
  else if io.readdir = true then Except.error RestoreError.readdir
  else if (selectLatest fs ([], 0)).2 = 0 then Except.error RestoreError.notFound
  else readSnapshot io fs (selectLatest fs ([], 0)).1

/-- The service `NewService` builds on the directory `fs`, before its listener has
processed anything: `s.dict` is a new empty map (object 0), replaced by the map that
`RestoreFromPersistance` returns whenever it returns no error, be it a map object
(object 1) or the nil map. -/
def NewService (io : Faults) (fs : List DirEntry) : ServiceX :=
  match RestoreFromPersistance io fs with
  | Except.error _ =>
    { heap := fun _ => Dict.empty, nextAddr := 1, dict := some 0, persistance := NewPersistance }
  | Except.ok GoMap.nil =>
    { heap := fun _ => Dict.empty, nextAddr := 1, dict := none, persistance := NewPersistance }
  | Except.ok (GoMap.object m) =>
    { heap := Function.update (fun _ => Dict.empty) 1 m, nextAddr := 2, dict := some 1,
      persistance := NewPersistance }

/-- The map the worker of `StartTicker` hands to `Persist` when it takes the next element
off the channel (`receivedDict := <-p.persistanceChan`, then `p.Persist(&receivedDict)`):
the channel carries a reference, so this is the content the map object has when the
worker reads it.  `none` when the channel is empty and the receive blocks. -/
def receivedDict (s : ServiceX) : Option GoMap :=
  match s.persistance.persistanceChan with
  | [] => none
  | a :: _ => some (s.deref a)

/-- One iteration of the worker loop of `StartTicker`, at Unix time `now` on the directory
`fs`: the oldest reference is taken off the channel and `Persist` is called on the map it
refers to.  `none` when the channel is empty. -/
def workerStep (s : ServiceX) (io : Faults) (now : Int) (fs : List DirEntry) :
    Option (ServiceX × PersistResult) :=
  match s.persistance.persistanceChan with
  | [] => none
  | a :: rest =>
    some ({ s with persistance :=
              (Persist { s.persistance with persistanceChan := rest } io now fs (s.deref a)).engine },
      Persist { s.persistance with persistanceChan := rest } io now fs (s.deref a))

/-- The engine and the directory after a sequence of `Persist` calls, each with its own
I/O failures, clock reading and mapping. -/
def persistCalls (p : FSPersistance) (fs : List DirEntry) :
    List (Faults × Int × GoMap) → FSPersistance × List DirEntry
  | [] => (p, fs)
  | c :: cs =>
    persistCalls (Persist p c.1 c.2.1 fs c.2.2).engine (Persist p c.1 c.2.1 fs c.2.2).files cs

/-- The failure of `os.OpenFile` alone. -/
def openFails : Faults := { noFaults with openFile := true }

/-- The failure of `fmt.Fprintf` alone, after `n` bytes have been written. -/
def writeFails (n : Nat) : Faults := { noFaults with write := some n }

/-- The event is a `CREATE` operation. -/
def Event.isCreate : Event → Prop
  | Event.tick => False
  | Event.operation a => a.oper = CREATE

/-- The text part of `json.NewDecoder(r.Body).Decode(&result)`, `result` being the empty
map made just before: the first JSON value of the text is read and what follows it is
left unread.  An object whose member values are strings or `null` has its members
assigned to the map; the value `null` sets `result` to the nil map; any other value, and
a text without a complete value, is an error (`none`). -/
def decodeFirst (cs : List Char) : Option GoMap :=
  match skipSpace cs with
  | [] => none
  | c :: r =>
    if c = '{' then
      match skipSpace r with
      | [] => none
      | c' :: r' =>
        if c' = '}' then some (GoMap.object Dict.empty)
        else
          match decodeMembers (c' :: r').length (c' :: r') Dict.empty with
          | some (m, _) => some (GoMap.object m)
          | none => none
    else
      match c :: r with
      | a :: b :: c3 :: d :: _ =>
        if a = 'n' ∧ b = 'u' ∧ c3 = 'l' ∧ d = 'l' then some GoMap.nil else none
      | _ => none

/-- The call `json.NewDecoder(r.Body).Decode(&result)` on the bytes of a request body,
`result` being the empty map made just before. -/
def jsonDecode (body : Bytes) : Except JsonError GoMap :=
  match decodeFirst (utf8Decode body) with
  | some m => Except.ok m
  | none => Except.error JsonError.unmarshal

/-- The status `http.StatusBadRequest`. -/
def StatusBadRequest : Nat := 400

/-- The status `http.StatusCreated`. -/
def StatusCreated : Nat := 201

/-- The slice `reflect.ValueOf(result).MapKeys()`.  The runtime chooses the order of the
keys; `first` tells which key, counted in key order, it puts first, the others following
cyclically. -/
def MapKeys (m : GoMap) (first : Nat) : List GoString :=
  (m.content.entries.map Prod.fst).rotate first

/-- How a handler ends: it has written a response with the given status, it has
panicked, or the program has ended before it could answer (a panic of the listener). -/
inductive HandlerOutcome where
  | responded (status : Nat)
  | panicked
  | programEnded
deriving DecidableEq

deriving instance DecidableEq for ApiOperation

/-- What a call of the `Create` handler leaves: the service, the operations it has sent on
`s.operationChan` and how it ended. -/
structure CreateResult where
  service : ServiceX
  submitted : List ApiOperation
  outcome : HandlerOutcome

/-- The handler `Create` on a request body, the listener answering the operation it
submits.  The index expression `MapKeys()[0]` panics on an empty slice.  In the branch
for a negative acknowledgement the handler writes status 500 and then evaluates
`_err.Error()` on a nil error, which panics. -/
def Create (s : ServiceX) (body : Bytes) (first : Nat) : CreateResult :=
  match jsonDecode body with
  | Except.error _ =>
    { service := s, submitted := [], outcome := HandlerOutcome.responded StatusBadRequest }
  | Except.ok result =>
    match MapKeys result first with
    | [] => { service := s, submitted := [], outcome := HandlerOutcome.panicked }
    | key :: _ =>
      match handleOperation s
          { oper := CREATE, key := key, value := (result.content.get? key).getD [] } with
      | none =>
        { service := s,
          submitted := [{ oper := CREATE, key := key, value := (result.content.get? key).getD [] }],
          outcome := HandlerOutcome.programEnded }
      | some r =>
        if r.2.ack = true then
          { service := r.1,
            submitted :=
              [{ oper := CREATE, key := key, value := (result.content.get? key).getD [] }],
            outcome := HandlerOutcome.responded StatusCreated }
        else
          { service := r.1,
            submitted :=
              [{ oper := CREATE, key := key, value := (result.content.get? key).getD [] }],
            outcome := HandlerOutcome.panicked }

/-! ## Properties of maps -/

theorem lookupEntry_insertEntry_self (k v : GoString) (l : List (GoString × GoString)) :
    lookupEntry k (insertEntry k v l) = some v := by
  induction l with
  | nil => simp [insertEntry, lookupEntry]
  | cons a t ih =>
    obtain ⟨k', v'⟩ := a
    by_cases h1 : k < k'
    · simp [insertEntry, h1, lookupEntry]
    · by_cases h2 : k = k'
      · subst h2; simp [insertEntry, lookupEntry]
      · simp [insertEntry, h1, h2, lookupEntry, ih]

theorem lookupEntry_insertEntry_ne (k v k₀ : GoString) (l : List (GoString × GoString))
    (hne : k₀ ≠ k) : lookupEntry k₀ (insertEntry k v l) = lookupEntry k₀ l := by
  induction l with
  | nil => simp [insertEntry, lookupEntry, hne]
  | cons a t ih =>
    obtain ⟨k', v'⟩ := a
    by_cases h1 : k < k'
    · simp [insertEntry, h1, lookupEntry, hne]
    · by_cases h2 : k = k'
      · subst h2; simp [insertEntry, lookupEntry, hne]
      · by_cases h3 : k₀ = k'
        · simp [insertEntry, h1, h2, lookupEntry, h3]
        · simp [insertEntry, h1, h2, lookupEntry, h3, ih]

theorem lookupEntry_eq_none_of_lt (k : GoString) (l : List (GoString × GoString))
    (h : ∀ b ∈ l, k < b.1) : lookupEntry k l = none := by
  induction l with
  | nil => rfl
  | cons a t ih =>
    obtain ⟨k', v'⟩ := a
    have h1 : k < k' := h (k', v') (by simp)
    have h2 : k ≠ k' := ne_of_lt h1
    simp only [lookupEntry, h2, if_false]
    exact ih (fun b hb => h b (by simp [hb]))

theorem ordered_ext (l₁ l₂ : List (GoString × GoString)) (h₁ : Ordered l₁) (h₂ : Ordered l₂)
    (h : ∀ k, lookupEntry k l₁ = lookupEntry k l₂) : l₁ = l₂ := by
  induction l₁ generalizing l₂ with
  | nil =>
    cases l₂ with
    | nil => rfl
    | cons b t₂ =>
      have := h b.1
      simp [lookupEntry] at this
  | cons a t₁ ih =>
    cases l₂ with
    | nil =>
      have := h a.1
      simp [lookupEntry] at this
    | cons b t₂ =>
      obtain ⟨ka, va⟩ := a
      obtain ⟨kb, vb⟩ := b
      have ha : (∀ x ∈ t₁, ka < x.1) ∧ Ordered t₁ := by
        simpa [Ordered, List.pairwise_cons] using h₁
      have hb : (∀ x ∈ t₂, kb < x.1) ∧ Ordered t₂ := by
        simpa [Ordered, List.pairwise_cons] using h₂
      have hk : ka = kb := by
        rcases lt_trichotomy ka kb with hlt | heq | hgt
        · exfalso
          have h0 := h ka
          have hn : lookupEntry ka ((kb, vb) :: t₂) = none :=
            lookupEntry_eq_none_of_lt ka _ (by
              intro x hx
              rcases List.mem_cons.mp hx with hx | hx
              · rw [hx]; exact hlt
              · exact lt_trans hlt (hb.1 x hx))
          rw [hn] at h0
          simp [lookupEntry] at h0
        · exact heq
        · exfalso
          have h0 := h kb
          have hn : lookupEntry kb ((ka, va) :: t₁) = none :=
            lookupEntry_eq_none_of_lt kb _ (by
              intro x hx
              rcases List.mem_cons.mp hx with hx | hx
              · rw [hx]; exact hgt
              · exact lt_trans hgt (ha.1 x hx))
          rw [hn] at h0
          simp [lookupEntry] at h0
      subst hk
      have hv : va = vb := by
        have h0 := h ka
        simpa [lookupEntry] using h0
      subst hv
      have ht : t₁ = t₂ := by
        apply ih t₂ ha.2 hb.2
        intro k
        by_cases hkk : k = ka
        · subst hkk
          rw [lookupEntry_eq_none_of_lt k t₁ ha.1, lookupEntry_eq_none_of_lt k t₂ hb.1]
        · have h0 := h k
          simpa [lookupEntry, hkk] using h0
      rw [ht]

theorem Dict.ext_get (a b : Dict) (h : ∀ k, a.get? k = b.get? k) : a = b :=
  Dict.ext_entries a b (ordered_ext a.entries b.entries a.ordered b.ordered h)

theorem Dict.get_set_self (m : Dict) (k v : GoString) : (m.set k v).get? k = some v :=
  lookupEntry_insertEntry_self k v m.entries

theorem Dict.get_set_ne (m : Dict) (k v k₀ : GoString) (h : k₀ ≠ k) :
    (m.set k v).get? k₀ = m.get? k₀ :=
  lookupEntry_insertEntry_ne k v k₀ m.entries h

theorem Dict.get_empty (k : GoString) : Dict.empty.get? k = none := rfl

theorem Dict.set_comm (m : Dict) (k₁ v₁ k₂ v₂ : GoString) (h : k₁ ≠ k₂) :
    (m.set k₁ v₁).set k₂ v₂ = (m.set k₂ v₂).set k₁ v₁ := by
  apply Dict.ext_get
  intro k
  by_cases h1 : k = k₁
  · subst h1
    rw [Dict.get_set_ne _ _ _ _ h, Dict.get_set_self, Dict.get_set_self]
  · by_cases h2 : k = k₂
    · subst h2
      rw [Dict.get_set_self, Dict.get_set_ne _ _ _ _ h1, Dict.get_set_self]
    · rw [Dict.get_set_ne _ _ _ _ h2, Dict.get_set_ne _ _ _ _ h1,
        Dict.get_set_ne _ _ _ _ h1, Dict.get_set_ne _ _ _ _ h2]

/-! ## Properties of the store actor -/

theorem Dict.single_entries (k v : GoString) : (Dict.single k v).entries = [(k, v)] := rfl

theorem Dict.get_single (k v k₀ : GoString) :
    (Dict.single k v).get? k₀ = if k₀ = k then some v else none := by
  by_cases h : k₀ = k
  · subst h
    rw [if_pos rfl]
    exact Dict.get_set_self _ _ _
  · rw [if_neg h]
    exact Dict.get_set_ne _ _ _ _ h

theorem mapping_handleTick (s : ServiceX) : (handleTick s).mapping = s.mapping := rfl

theorem handleOperation_create (s : ServiceX) (a : ApiOperation) (r : Nat)
    (h : a.oper = CREATE) (hd : s.dict = some r) :
    handleOperation s a
      = some ({ s with heap := Function.update s.heap r ((s.heap r).set a.key a.value) },
          { respData := none, ack := true }) := by
  simp [handleOperation, h, hd]

/-- On the nil map the `CREATE` branch panics. -/
theorem handleOperation_create_nil (s : ServiceX) (a : ApiOperation)
    (h : a.oper = CREATE) (hd : s.dict = none) : handleOperation s a = none := by
  simp [handleOperation, h, hd]

theorem handleOperation_deleteAll (s : ServiceX) (a : ApiOperation) (h : a.oper = DELETEALL) :
    handleOperation s a
      = some ({ s with heap := Function.update s.heap s.nextAddr Dict.empty,
                       nextAddr := s.nextAddr + 1,
                       dict := some s.nextAddr },
          { respData := none, ack := true }) := by
  have h0 : ¬ (DELETEALL = CREATE) := by decide
  have h1 : ¬ (DELETEALL = GET) := by decide
  simp [handleOperation, h, h0, h1]

theorem handleOperation_other (s : ServiceX) (a : ApiOperation) (h0 : a.oper ≠ CREATE)
    (h2 : a.oper ≠ DELETEALL) : ∃ rep, handleOperation s a = some (s, rep) := by
  unfold handleOperation
  by_cases h1 : a.oper = GET
  · simp only [h0, h1, if_true, if_false]
    cases s.mapping.get? a.key with
    | none => exact ⟨_, rfl⟩
    | some v => exact ⟨_, rfl⟩
  · simp only [h0, h1, h2, if_false]
    exact ⟨_, rfl⟩

theorem mapping_create (s s' : ServiceX) (a : ApiOperation) (rep : Reply)
    (h : a.oper = CREATE) (hs : handleOperation s a = some (s', rep)) :
    s'.mapping = s.mapping.set a.key a.value ∧ s'.dict = s.dict
      ∧ s'.persistance = s.persistance ∧ rep = { respData := none, ack := true }
      ∧ s.dict ≠ none := by
  cases hd : s.dict with
  | none => rw [handleOperation_create_nil s a h hd] at hs; exact absurd hs (by simp)
  | some r =>
    rw [handleOperation_create s a r h hd] at hs
    simp only [Option.some.injEq, Prod.mk.injEq] at hs
    obtain ⟨h1, h2⟩ := hs
    subst h1
    subst h2
    refine ⟨?_, ?_, rfl, rfl, ?_⟩
    · simp [ServiceX.mapping, ServiceX.deref, GoMap.content, hd]
    · simp [hd]
    · simp

theorem mapping_deleteAll (s s' : ServiceX) (a : ApiOperation) (rep : Reply)
    (h : a.oper = DELETEALL) (hs : handleOperation s a = some (s', rep)) :
    s'.mapping = Dict.empty ∧ s'.dict ≠ none ∧ rep = { respData := none, ack := true } := by
  rw [handleOperation_deleteAll s a h] at hs
  simp only [Option.some.injEq, Prod.mk.injEq] at hs
  obtain ⟨h1, h2⟩ := hs
  subst h1
  subst h2
  refine ⟨?_, by simp, rfl⟩
  simp [ServiceX.mapping, ServiceX.deref, GoMap.content]

theorem mapping_other (s s' : ServiceX) (a : ApiOperation) (rep : Reply)
    (h0 : a.oper ≠ CREATE) (h2 : a.oper ≠ DELETEALL)
    (hs : handleOperation s a = some (s', rep)) : s' = s := by
  obtain ⟨rep', h⟩ := handleOperation_other s a h0 h2
  rw [h] at hs
  simp only [Option.some.injEq, Prod.mk.injEq] at hs
  exact hs.1.symm

/-- A step of the listener on an operation is the branch for that operation. -/
theorem listenerStep_operation (s : ServiceX) (a : ApiOperation) (r : ServiceX × Option Reply)
    (h : listenerStep s (Event.operation a) = some r) :
    ∃ rep, handleOperation s a = some (r.1, rep) ∧ r.2 = some rep := by
  simp only [listenerStep] at h
  cases hh : handleOperation s a with
  | none => rw [hh] at h; exact absurd h (by simp)
  | some q =>
    rw [hh] at h
    simp only [Option.some.injEq] at h
    subst h
    exact ⟨q.2, rfl, rfl⟩

theorem listenerStep_of_handleOperation (s s' : ServiceX) (a : ApiOperation) (rep : Reply)
    (h : handleOperation s a = some (s', rep)) :
    listenerStep s (Event.operation a) = some (s', some rep) := by
  simp only [listenerStep, h]

/-- From a map object every event is processed, and `s.dict` is a map object afterwards. -/
theorem listenerStep_total (s : ServiceX) (e : Event) (hs : s.dict ≠ none) :
    ∃ r, listenerStep s e = some r ∧ r.1.dict ≠ none := by
  cases e with
  | tick => exact ⟨_, rfl, hs⟩
  | operation a =>
    by_cases h0 : a.oper = CREATE
    · cases hd : s.dict with
      | none => exact absurd hd hs
      | some r =>
        refine ⟨_, listenerStep_of_handleOperation s _ a _ (handleOperation_create s a r h0 hd), ?_⟩
        simp [hd]
    · by_cases h2 : a.oper = DELETEALL
      · refine ⟨_, listenerStep_of_handleOperation s _ a _ (handleOperation_deleteAll s a h2), ?_⟩
        simp
      · obtain ⟨rep, h⟩ := handleOperation_other s a h0 h2
        exact ⟨_, listenerStep_of_handleOperation s _ a _ h, hs⟩

theorem listener_total (s : ServiceX) (evs : List Event) (hs : s.dict ≠ none) :
    ∃ s', StartApiOperationListener s evs = some s' ∧ s'.dict ≠ none := by
  induction evs generalizing s with
  | nil => exact ⟨s, rfl, hs⟩
  | cons e es ih =>
    obtain ⟨r, hr, hr'⟩ := listenerStep_total s e hs
    obtain ⟨s', h1, h2⟩ := ih r.1 hr'
    refine ⟨s', ?_, h2⟩
    simp only [StartApiOperationListener, hr]
    exact h1

theorem listener_cons (s s' : ServiceX) (e : Event) (es : List Event)
    (h : StartApiOperationListener s (e :: es) = some s') :
    ∃ r, listenerStep s e = some r ∧ StartApiOperationListener r.1 es = some s' := by
  simp only [StartApiOperationListener] at h
  cases hh : listenerStep s e with
  | none => rw [hh] at h; exact absurd h (by simp)
  | some r => rw [hh] at h; exact ⟨r, rfl, h⟩

/-- A key keeps its entry across every event that is neither a `CREATE` on that key nor a
`DELETEALL`. -/
theorem get_listenerStep_frame (s : ServiceX) (e : Event) (k : GoString)
    (r : ServiceX × Option Reply)
    (hc : ¬ e.isCreateOn k) (hd : ¬ e.isDeleteAll) (hstep : listenerStep s e = some r) :
    r.1.mapping.get? k = s.mapping.get? k := by
  cases e with
  | tick =>
    simp only [listenerStep, Option.some.injEq] at hstep
    subst hstep
    rfl
  | operation a =>
    simp only [Event.isCreateOn, Event.isDeleteAll] at hc hd
    obtain ⟨rep, hop, _⟩ := listenerStep_operation s a r hstep
    by_cases h0 : a.oper = CREATE
    · have hk : k ≠ a.key := fun h => hc ⟨h0, h.symm⟩
      rw [(mapping_create s r.1 a rep h0 hop).1, Dict.get_set_ne _ _ _ _ hk]
    · rw [mapping_other s r.1 a rep h0 hd hop]

theorem get_listener_frame (s s' : ServiceX) (evs : List Event) (k : GoString)
    (h : ∀ e ∈ evs, ¬ e.isCreateOn k ∧ ¬ e.isDeleteAll)
    (hrun : StartApiOperationListener s evs = some s') :
    s'.mapping.get? k = s.mapping.get? k := by
  induction evs generalizing s with
  | nil =>
    simp only [StartApiOperationListener, Option.some.injEq] at hrun
    rw [hrun]
  | cons e es ih =>
    obtain ⟨r, hr, hrest⟩ := listener_cons s s' e es hrun
    rw [ih r.1 (fun x hx => h x (List.mem_cons_of_mem _ hx)) hrest]
    exact get_listenerStep_frame s e k r (h e (List.mem_cons_self _ _)).1
      (h e (List.mem_cons_self _ _)).2 hr

/-- An absent key stays absent across every event that is not a `CREATE` on it. -/
theorem get_listenerStep_absent (s : ServiceX) (e : Event) (k : GoString)
    (r : ServiceX × Option Reply)
    (hc : ¬ e.isCreateOn k) (habs : s.mapping.get? k = none)
    (hstep : listenerStep s e = some r) :
    r.1.mapping.get? k = none := by
  cases e with
  | tick =>
    simp only [listenerStep, Option.some.injEq] at hstep
    subst hstep
    exact habs
  | operation a =>
    by_cases hd : a.oper = DELETEALL
    · obtain ⟨rep, hop, _⟩ := listenerStep_operation s a r hstep
      rw [(mapping_deleteAll s r.1 a rep hd hop).1]
      rfl
    · rw [get_listenerStep_frame s _ k r hc (by simpa [Event.isDeleteAll] using hd) hstep]
      exact habs

theorem get_listener_absent (s s' : ServiceX) (evs : List Event) (k : GoString)
    (h : ∀ e ∈ evs, ¬ e.isCreateOn k) (habs : s.mapping.get? k = none)
    (hrun : StartApiOperationListener s evs = some s') :
    s'.mapping.get? k = none := by
  induction evs generalizing s with
  | nil =>
    simp only [StartApiOperationListener, Option.some.injEq] at hrun
    rw [← hrun]
    exact habs
  | cons e es ih =>
    obtain ⟨r, hr, hrest⟩ := listener_cons s s' e es hrun
    exact ih r.1 (fun x hx => h x (List.mem_cons_of_mem _ hx))
      (get_listenerStep_absent s e k r (h e (List.mem_cons_self _ _)) habs hr) hrest

theorem listener_append (s : ServiceX) (xs ys : List Event) :
    StartApiOperationListener s (xs ++ ys)
      = (StartApiOperationListener s xs).bind (fun s' => StartApiOperationListener s' ys) := by
  induction xs generalizing s with
  | nil => rfl
  | cons e es ih =>
    simp only [List.cons_append, StartApiOperationListener]
    cases listenerStep s e with
    | none => rfl
    | some r => exact ih r.1

theorem handleOperation_get_some (s : ServiceX) (k v : GoString)
    (h : s.mapping.get? k = some v) :
    handleOperation s (getOp k)
      = some (s, { respData := some (Dict.single k v), ack := true }) := by
  have hg : ¬ (GET = CREATE) := by decide
  simp [handleOperation, getOp, hg, h]

theorem handleOperation_get_none (s : ServiceX) (k : GoString)
    (h : s.mapping.get? k = none) :
    handleOperation s (getOp k) = some (s, { respData := none, ack := false }) := by
  have hg : ¬ (GET = CREATE) := by decide
  simp [handleOperation, getOp, hg, h]

/-- An event that is not a `CREATE` is processed without panic, whatever `s.dict` is. -/
theorem listenerStep_total_of_not_create (s : ServiceX) (e : Event) (hne : ¬ e.isCreate) :
    ∃ r, listenerStep s e = some r := by
  cases e with
  | tick => exact ⟨_, rfl⟩
  | operation a =>
    have h0 : a.oper ≠ CREATE := hne
    by_cases h2 : a.oper = DELETEALL
    · exact ⟨_, listenerStep_of_handleOperation s _ a _ (handleOperation_deleteAll s a h2)⟩
    · obtain ⟨rep, h⟩ := handleOperation_other s a h0 h2
      exact ⟨_, listenerStep_of_handleOperation s _ a _ h⟩

theorem listener_total_of_no_create (s : ServiceX) (evs : List Event)
    (hne : ∀ e ∈ evs, ¬ e.isCreate) : ∃ s', StartApiOperationListener s evs = some s' := by
  induction evs generalizing s with
  | nil => exact ⟨s, rfl⟩
  | cons e es ih =>
    obtain ⟨r, hr⟩ := listenerStep_total_of_not_create s e (hne e (List.mem_cons_self _ _))
    obtain ⟨s', h1⟩ := ih r.1 (fun x hx => hne x (List.mem_cons_of_mem _ hx))
    refine ⟨s', ?_⟩
    simp only [StartApiOperationListener, hr]
    exact h1

/-- Once the listener has processed `CREATE k v` followed by events among which there is
no `CREATE` on `k` and no `DELETEALL`, a `GET k` leaves the state as it is, sends the
single-entry map `{k: v}` on the data path and acknowledges `true`. -/
theorem get_after_last_create (s s' : ServiceX) (pre mid : List Event) (k v : GoString)
    (hmid : ∀ e ∈ mid, ¬ e.isCreateOn k ∧ ¬ e.isDeleteAll)
    (hrun : StartApiOperationListener s (pre ++ Event.operation (createOp k v) :: mid)
      = some s') :
    listenerStep s' (Event.operation (getOp k))
        = some (s', some { respData := some (Dict.single k v), ack := true })
    ∧ (Dict.single k v).entries = [(k, v)] := by
  refine ⟨?_, rfl⟩
  rw [listener_append] at hrun
  cases h1 : StartApiOperationListener s pre with
  | none => rw [h1] at hrun; exact absurd hrun (by simp)
  | some s1 =>
    rw [h1] at hrun
    simp only [Option.some_bind] at hrun
    obtain ⟨r, hr, hrest⟩ := listener_cons s1 s' _ mid hrun
    obtain ⟨rep, hop, _⟩ := listenerStep_operation s1 (createOp k v) r hr
    have hget : s'.mapping.get? k = some v := by
      rw [get_listener_frame r.1 s' mid k hmid hrest,
        (mapping_create s1 r.1 (createOp k v) rep rfl hop).1]
      exact Dict.get_set_self _ k v
    exact listenerStep_of_handleOperation s' s' _ _ (handleOperation_get_some s' k v hget)

/-- When `s.dict` is a map object, the listener processes every sequence of events:
none of them panics. -/
theorem listener_runs_on_map_object (s : ServiceX) (evs : List Event) (hs : s.dict ≠ none) :
    ∃ s', StartApiOperationListener s evs = some s' :=
  (listener_total s evs hs).imp (fun _ h => h.1)

/-- When `s.dict` is a map object, processing `CREATE key value` acknowledges `true`,
sends nothing on the data path, keeps `s.dict` pointing at the same map object and leaves
the persistence engine alone; in the resulting mapping `key` maps to `value` and every
other key has the entry (or the absence) it had before. -/
theorem create_sets_key_only (s : ServiceX) (key value : GoString) (hs : s.dict ≠ none) :
    ∃ s', handleOperation s (createOp key value)
        = some (s', { respData := none, ack := true })
      ∧ s'.dict = s.dict
      ∧ s'.persistance = s.persistance
      ∧ s'.mapping.get? key = some value
      ∧ ∀ k, k ≠ key → s'.mapping.get? k = s.mapping.get? k := by
  cases hd : s.dict with
  | none => exact absurd hd hs
  | some r =>
    have hop := handleOperation_create s (createOp key value) r rfl hd
    obtain ⟨hm, hdict, hp, _, _⟩ := mapping_create s _ (createOp key value) _ rfl hop
    refine ⟨_, hop, ?_, hp, ?_, ?_⟩
    · rw [hdict, hd]
    · rw [hm]
      exact Dict.get_set_self _ key value
    · intro k hk
      rw [hm]
      exact Dict.get_set_ne _ key value k hk

/-- C3. If `k` is absent from the mapping (the nil map included) and the listener has
then processed events none of which is a `CREATE` on `k`, a `GET k` acknowledges `false`,
sends nothing on the data path and leaves the whole service state (the mapping included)
unchanged.  With no events this is the lookup miss on any mapping lacking `k`; from a
store started empty it is the `GET` of a key that was never inserted.  The listener does
process the events whenever `s.dict` is a map object or none of the events is a
`CREATE`. -/
theorem get_absent_key (s : ServiceX) (evs : List Event) (k : GoString)
    (habs : s.mapping.get? k = none) (hev : ∀ e ∈ evs, ¬ e.isCreateOn k) :
    (∀ s', StartApiOperationListener s evs = some s' →
      listenerStep s' (Event.operation (getOp k))
        = some (s', some { respData := none, ack := false }))
    ∧ (s.dict ≠ none ∨ (∀ e ∈ evs, ¬ e.isCreate) →
        ∃ s', StartApiOperationListener s evs = some s') := by
  refine ⟨?_, fun hs => hs.elim (fun h => (listener_total s evs h).imp (fun _ h => h.1))
    (listener_total_of_no_create s evs)⟩
  intro s' hrun
  exact listenerStep_of_handleOperation s' s' _ _
    (handleOperation_get_none s' k (get_listener_absent s s' evs k hev habs hrun))

/-- Witness of `get_absent_key`: a store started empty that has seen a `CREATE` and a
`GET` on another key, a tick and a `DELETEALL`. -/
theorem get_absent_key_witness :
    (ServiceX.start Dict.empty).mapping.get? "key1".data = none
    ∧ (∀ s', StartApiOperationListener (ServiceX.start Dict.empty)
          [Event.operation (createOp "key2".data "value2".data), Event.tick,
            Event.operation (getOp "key2".data), Event.operation deleteAllOp] = some s' →
        listenerStep s' (Event.operation (getOp "key1".data))
          = some (s', some { respData := none, ack := false }))
    ∧ ((ServiceX.start Dict.empty).dict ≠ none
          ∨ (∀ e ∈ [Event.operation (createOp "key2".data "value2".data), Event.tick,
              Event.operation (getOp "key2".data), Event.operation deleteAllOp],
              ¬ e.isCreate) →
        ∃ s', StartApiOperationListener (ServiceX.start Dict.empty)
          [Event.operation (createOp "key2".data "value2".data), Event.tick,
            Event.operation (getOp "key2".data), Event.operation deleteAllOp] = some s') :=
  ⟨rfl, get_absent_key (ServiceX.start Dict.empty) _ "key1".data rfl (by
    intro e he
    simp only [List.mem_cons, List.mem_singleton, List.not_mem_nil, or_false] at he
    rcases he with h | h | h | h <;> subst h <;>
      simp [Event.isCreateOn, createOp, getOp, deleteAllOp, CREATE, GET, DELETEALL])⟩

/-- C4. Processing `DELETEALL` acknowledges `true`, sends nothing on the data path and
leaves `s.dict` referring to an empty mapping, whatever `s.dict` was (the nil map
included); after it the listener processes any further events, and if none of them is a
`CREATE` on `k`, a `GET k` then acknowledges `false` and sends no data, whether or not
`k` was present before the `DELETEALL`. -/
theorem deleteAll_clears (s : ServiceX) (evs : List Event) (k : GoString)
    (hev : ∀ e ∈ evs, ¬ e.isCreateOn k) :
    ∃ s1 s2, handleOperation s deleteAllOp = some (s1, { respData := none, ack := true })
      ∧ s1.mapping = Dict.empty
      ∧ StartApiOperationListener s1 evs = some s2
      ∧ listenerStep s2 (Event.operation (getOp k))
          = some (s2, some { respData := none, ack := false }) := by
  have hop := handleOperation_deleteAll s deleteAllOp rfl
  obtain ⟨hm, hd, _⟩ := mapping_deleteAll s _ deleteAllOp _ rfl hop
  obtain ⟨s2, hrun, _⟩ := listener_total _ evs hd
  refine ⟨_, s2, hop, hm, hrun, ?_⟩
  exact listenerStep_of_handleOperation s2 s2 _ _
    (handleOperation_get_none s2 k
      (get_listener_absent _ s2 evs k hev (by rw [hm]; rfl) hrun))

/-- Witness of `deleteAll_clears`: `key1` is present, `DELETEALL` is processed, then a
`CREATE` of another key and a tick, and `GET key1` is answered negatively. -/
theorem deleteAll_clears_witness :
    (ServiceX.start (Dict.empty.set "key1".data "value1".data)).mapping.get? "key1".data
        = some "value1".data
    ∧ ∃ s1 s2,
        handleOperation (ServiceX.start (Dict.empty.set "key1".data "value1".data)) deleteAllOp
          = some (s1, { respData := none, ack := true })
      ∧ s1.mapping = Dict.empty
      ∧ StartApiOperationListener s1
          [Event.operation (createOp "key2".data "value2".data), Event.tick] = some s2
      ∧ listenerStep s2 (Event.operation (getOp "key1".data))
          = some (s2, some { respData := none, ack := false }) :=
  ⟨by decide, deleteAll_clears _ _ "key1".data (by
    intro e he
    simp only [List.mem_cons, List.mem_singleton, List.not_mem_nil, or_false] at he
    rcases he with h | h <;> subst h <;>
      simp [Event.isCreateOn, createOp, CREATE])⟩

theorem mapping_createEvents (s : ServiceX) (l : List (GoString × GoString))
    (hs : s.dict ≠ none) :
    ∃ s', StartApiOperationListener s (createEvents l) = some s'
      ∧ s'.mapping = l.foldl (fun m kv => m.set kv.1 kv.2) s.mapping
      ∧ s'.dict = s.dict ∧ s'.persistance = s.persistance := by
  induction l generalizing s with
  | nil => exact ⟨s, rfl, rfl, rfl, rfl⟩
  | cons a t ih =>
    cases hd : s.dict with
    | none => exact absurd hd hs
    | some r =>
      have hop := handleOperation_create s (createOp a.1 a.2) r rfl hd
      obtain ⟨hm, hdict, hp, _, _⟩ := mapping_create s _ (createOp a.1 a.2) _ rfl hop
      obtain ⟨s', h1, h2, h3, h4⟩ := ih _ (by rw [hdict]; exact hs)
      refine ⟨s', ?_, ?_, ?_, ?_⟩
      · simp only [createEvents, List.map_cons, StartApiOperationListener,
          listenerStep_of_handleOperation s _ _ _ hop]
        exact h1
      · rw [h2, hm]
        rfl
      · rw [h3, hdict, hd]
      · rw [h4, hp]

theorem get_foldl_set_of_not_mem (l : List (GoString × GoString)) (m : Dict) (k : GoString)
    (h : k ∉ l.map Prod.fst) :
    (l.foldl (fun m kv => m.set kv.1 kv.2) m).get? k = m.get? k := by
  induction l generalizing m with
  | nil => rfl
  | cons a t ih =>
    simp only [List.map_cons, List.mem_cons, not_or] at h
    simp only [List.foldl_cons]
    rw [ih _ h.2, Dict.get_set_ne _ _ _ _ h.1]

theorem get_foldl_set_of_mem (l : List (GoString × GoString)) (m : Dict)
    (hnd : (l.map Prod.fst).Nodup) (kv : GoString × GoString) (hkv : kv ∈ l) :
    (l.foldl (fun m kv => m.set kv.1 kv.2) m).get? kv.1 = some kv.2 := by
  induction l generalizing m with
  | nil => simp at hkv
  | cons a t ih =>
    simp only [List.map_cons, List.nodup_cons] at hnd
    simp only [List.foldl_cons]
    rcases List.mem_cons.mp hkv with h | h
    · subst h
      rw [get_foldl_set_of_not_mem t _ kv.1 hnd.1, Dict.get_set_self]
    · exact ih _ hnd.2 h

/-- When `s.dict` is a map object, `CREATE` operations on pairwise distinct keys are all
processed and leave the same mapping in whatever order the listener processes them, and
that mapping holds each of the keys with its own value. -/
theorem creates_order_irrelevant (s : ServiceX) (l l' : List (GoString × GoString))
    (hs : s.dict ≠ none) (hnd : (l.map Prod.fst).Nodup) (hperm : l'.Perm l) :
    ∃ s1 s2, StartApiOperationListener s (createEvents l') = some s1
      ∧ StartApiOperationListener s (createEvents l) = some s2
      ∧ s1.mapping = s2.mapping
      ∧ ∀ kv ∈ l, s1.mapping.get? kv.1 = some kv.2 := by
  obtain ⟨s1, h1, hm1, _, _⟩ := mapping_createEvents s l' hs
  obtain ⟨s2, h2, hm2, _, _⟩ := mapping_createEvents s l hs
  have heq : s1.mapping = s2.mapping := by
    rw [hm1, hm2]
    apply List.Perm.foldl_eq' hperm
    intro x hx y hy z
    by_cases hxy : x.1 = y.1
    · have hx' : x ∈ l := hperm.subset hx
      have hy' : y ∈ l := hperm.subset hy
      have : x = y := List.inj_on_of_nodup_map hnd hx' hy' hxy
      rw [this]
    · exact Dict.set_comm z x.1 x.2 y.1 y.2 hxy
  refine ⟨s1, s2, h1, h2, heq, ?_⟩
  intro kv hkv
  rw [heq, hm2]
  exact get_foldl_set_of_mem l _ hnd kv hkv

/-- A `CREATE` on the nil map makes the listener panic, whatever follows it. -/
theorem listener_panics_on_nil_map (s : ServiceX) (k v : GoString) (evs : List Event)
    (hd : s.dict = none) :
    StartApiOperationListener s (Event.operation (createOp k v) :: evs) = none
    ∧ listenerReplies s (Event.operation (createOp k v) :: evs) = [] := by
  have h := handleOperation_create_nil s (createOp k v) rfl hd
  simp [StartApiOperationListener, listenerReplies, listenerStep, h]

/-- C2: the code at a failing input.  The directory holds a snapshot file whose content is
`null`.  `RestoreFromPersistance` returns the nil map and no error, `NewService` stores
it in `s.dict`, and the store holds the empty mapping.  Processing `CREATE key1 value1`
then panics at the assignment: nothing is acknowledged and no mapping results.  On the
snapshot of the empty map object the same operation acknowledges `true` and leaves
`key1` mapped to `value1`. -/
theorem create_panics_on_nil_map :
    RestoreFromPersistance noFaults [regularFile "GOAPP-100.json" "null\n"]
      = Except.ok GoMap.nil
    ∧ (NewService noFaults [regularFile "GOAPP-100.json" "null\n"]).dict = none
    ∧ (NewService noFaults [regularFile "GOAPP-100.json" "null\n"]).mapping = Dict.empty
    ∧ (handleOperation (NewService noFaults [regularFile "GOAPP-100.json" "null\n"])
        (createOp "key1".data "value1".data)).isSome = false
    ∧ (handleOperation (NewService noFaults [regularFile "GOAPP-100.json" "\x7b\x7d\n"])
        (createOp "key1".data "value1".data)).map (fun r => (r.1.mapping, r.2))
      = some (Dict.empty.set "key1".data "value1".data, { respData := none, ack := true }) := by
  decide

/-- C1: the code at a failing input.  The directory holds a snapshot file whose content is
`null`, so `NewService` leaves the nil map in `s.dict`.  The listener then receives
`CREATE key1 value1` and `GET key1`: the `CREATE` panics, the listener ends, and neither
operation is answered, where the claim has the `GET` acknowledged with `{key1: value1}`.
On the snapshot of the empty map object the listener answers both, the `GET` with the
single-entry map. -/
theorem get_after_create_unanswered :
    (NewService noFaults [regularFile "GOAPP-100.json" "null\n"]).dict = none
    ∧ (StartApiOperationListener (NewService noFaults [regularFile "GOAPP-100.json" "null\n"])
        [Event.operation (createOp "key1".data "value1".data),
          Event.operation (getOp "key1".data)]).isSome = false
    ∧ listenerReplies (NewService noFaults [regularFile "GOAPP-100.json" "null\n"])
        [Event.operation (createOp "key1".data "value1".data),
          Event.operation (getOp "key1".data)] = []
    ∧ listenerReplies (NewService noFaults [regularFile "GOAPP-100.json" "\x7b\x7d\n"])
        [Event.operation (createOp "key1".data "value1".data),
          Event.operation (getOp "key1".data)]
      = [{ respData := none, ack := true },
         { respData := some (Dict.single "key1".data "value1".data), ack := true }]
    ∧ (Dict.single "key1".data "value1".data).entries = [("key1".data, "value1".data)] := by
  decide

/-- C5: the code at a failing input.  The directory holds a snapshot file whose content is
`null`, so `NewService` leaves the nil map in `s.dict`.  The listener then receives
`CREATE a 1` and `CREATE b 2`, in either order: the first one panics and no mapping
holding the two keys results.  On the snapshot of the empty map object both orders are
processed and leave `a` and `b` with their values. -/
theorem creates_panic_on_nil_map :
    (NewService noFaults [regularFile "GOAPP-100.json" "null\n"]).dict = none
    ∧ (StartApiOperationListener (NewService noFaults [regularFile "GOAPP-100.json" "null\n"])
        (createEvents [("a".data, "1".data), ("b".data, "2".data)])).isSome = false
    ∧ (StartApiOperationListener (NewService noFaults [regularFile "GOAPP-100.json" "null\n"])
        (createEvents [("b".data, "2".data), ("a".data, "1".data)])).isSome = false
    ∧ (StartApiOperationListener
          (NewService noFaults [regularFile "GOAPP-100.json" "\x7b\x7d\n"])
          (createEvents [("a".data, "1".data), ("b".data, "2".data)])).map ServiceX.mapping
      = some ((Dict.empty.set "a".data "1".data).set "b".data "2".data)
    ∧ (StartApiOperationListener
          (NewService noFaults [regularFile "GOAPP-100.json" "\x7b\x7d\n"])
          (createEvents [("b".data, "2".data), ("a".data, "1".data)])).map ServiceX.mapping
      = some ((Dict.empty.set "a".data "1".data).set "b".data "2".data) := by
  decide

/-! ## Properties of the persistence engine -/

theorem Persist_skip (p : FSPersistance) (io : Faults) (now : Int) (fs : List DirEntry)
    (m : GoMap) (h : p.latesHash = snapshotHash m) :
    Persist p io now fs m = { filename := [], engine := p, files := fs } := by
  have h' : p.latesHash = fnv32a (utf8Encode (marshalValue m)) := h
  simp [Persist, jsonMarshal, CheckIfHashIsSame, h']

theorem Persist_write (p : FSPersistance) (io : Faults) (now : Int) (fs fs1 : List DirEntry)
    (m : GoMap) (h : p.latesHash ≠ snapshotHash m)
    (hopen : openFile io fs (snapshotName now) = some fs1) (hw : io.write = none) :
    Persist p io now fs m
      = { filename := snapshotName now,
          engine := { p with latesHash := snapshotHash m },
          files := DeleteOldFiles io (writeAtStart (snapshotBytes m) (snapshotName now) fs1)
            (snapshotName now) } := by
  have h' : ¬ p.latesHash = fnv32a (utf8Encode (marshalValue m)) := h
  simp [Persist, jsonMarshal, CheckIfHashIsSame, h', hopen, hw, snapshotHash, snapshotBytes]

theorem snapshotName_ne_nil (now : Int) : snapshotName now ≠ [] := by
  simp [snapshotName]

theorem isSnapshotFile_snapshotName (now : Int) (content : Bytes) :
    isSnapshotFile { name := snapshotName now, isDir := false, content := content } = true := by
  have h1 : HasPrefix (snapshotName now) "GOAPP".data = true := by
    simp [HasPrefix, snapshotName]
  have h2 : HasSuffix (snapshotName now) ".json".data = true := by
    simp only [HasSuffix, snapshotName]
    rw [List.isSuffixOf_iff_suffix]
    exact List.suffix_append _ _
  simp [isSnapshotFile, h1, h2]

/-- C7. For every mapping, every engine whose retained hash differs from the FNV-1a hash
of the mapping's serialization, and any two clock readings, two successive calls of
`Persist` on an empty directory without I/O failure behave as follows: the first returns
the (non-empty) name of the file it creates, which holds the serialization followed by a
line feed and is the only entry of the directory; the second returns the empty string and
leaves the directory and the engine (retained hash included) exactly as the first call
left them; so one snapshot file is on disk. -/
theorem persist_twice_dedup (p : FSPersistance) (m : GoMap) (now₁ now₂ : Int)
    (hne : p.latesHash ≠ snapshotHash m) :
    (Persist p noFaults now₁ [] m).filename = snapshotName now₁
    ∧ (Persist p noFaults now₁ [] m).filename ≠ []
    ∧ (Persist p noFaults now₁ [] m).files
        = [{ name := snapshotName now₁, isDir := false, content := snapshotBytes m }]
    ∧ (Persist p noFaults now₁ [] m).engine.latesHash = snapshotHash m
    ∧ (Persist (Persist p noFaults now₁ [] m).engine noFaults now₂
          (Persist p noFaults now₁ [] m).files m).filename = []
    ∧ (Persist (Persist p noFaults now₁ [] m).engine noFaults now₂
          (Persist p noFaults now₁ [] m).files m).files = (Persist p noFaults now₁ [] m).files
    ∧ (Persist (Persist p noFaults now₁ [] m).engine noFaults now₂
          (Persist p noFaults now₁ [] m).files m).engine = (Persist p noFaults now₁ [] m).engine
    ∧ ((Persist (Persist p noFaults now₁ [] m).engine noFaults now₂
          (Persist p noFaults now₁ [] m).files m).files.filter
            (fun v => isSnapshotFile v)).length = 1 := by
  have hopen : openFile noFaults [] (snapshotName now₁)
      = some [{ name := snapshotName now₁, isDir := false, content := [] }] := by
    simp [openFile, noFaults]
  have h1 := Persist_write p noFaults now₁ [] _ m hne hopen rfl
  have hfiles : DeleteOldFiles noFaults
      (writeAtStart (snapshotBytes m) (snapshotName now₁)
        [{ name := snapshotName now₁, isDir := false, content := [] }]) (snapshotName now₁)
      = [{ name := snapshotName now₁, isDir := false, content := snapshotBytes m }] := by
    simp [DeleteOldFiles, noFaults, writeAtStart, deleteLoop]
  rw [hfiles] at h1
  have h2 := Persist_skip { p with latesHash := snapshotHash m } noFaults now₂
    [{ name := snapshotName now₁, isDir := false, content := snapshotBytes m }] m rfl
  rw [h1]
  dsimp only
  rw [h2]
  refine ⟨rfl, snapshotName_ne_nil now₁, rfl, rfl, rfl, rfl, rfl, ?_⟩
  simp [List.filter, isSnapshotFile_snapshotName]

/-- Witness of `persist_twice_dedup`: the engine `NewPersistance` returns (retained hash
0) and the mapping `{"key1": "value1"}`, both calls within the same second. -/
theorem persist_twice_dedup_witness :
    NewPersistance.latesHash ≠ snapshotHash (GoMap.object (Dict.empty.set "key1".data "value1".data))
    ∧ (Persist NewPersistance noFaults 1700000000 []
          (GoMap.object (Dict.empty.set "key1".data "value1".data))).filename = "GOAPP-1700000000.json".data
    ∧ (Persist (Persist NewPersistance noFaults 1700000000 []
            (GoMap.object (Dict.empty.set "key1".data "value1".data))).engine noFaults 1700000000
          (Persist NewPersistance noFaults 1700000000 []
            (GoMap.object (Dict.empty.set "key1".data "value1".data))).files
          (GoMap.object (Dict.empty.set "key1".data "value1".data))).filename = [] :=
  ⟨by decide,
    (persist_twice_dedup NewPersistance (GoMap.object (Dict.empty.set "key1".data "value1".data))
      1700000000 1700000000 (by decide)).1.trans (by decide),
    (persist_twice_dedup NewPersistance (GoMap.object (Dict.empty.set "key1".data "value1".data))
      1700000000 1700000000 (by decide)).2.2.2.2.1⟩

theorem deleteLoop_eq_filter (io : Faults) (newFilename : GoString)
    (files cur : List DirEntry) :
    deleteLoop io newFilename files cur
      = cur.filter (fun e =>
          !(files.any (fun v => isDeleted io newFilename v && decide (v.name = e.name)))) := by
  induction files generalizing cur with
  | nil => simp [deleteLoop]
  | cons v files ih =>
    by_cases hc : v.name ≠ newFilename ∧ isSnapshotFile v = true
    · by_cases hr : io.remove v.name = true
      · have hd : isDeleted io newFilename v = false := by simp [isDeleted, hr]
        simp only [deleteLoop, hc, removeFile, hr, if_true, ne_eq, not_false_eq_true, and_self]
        rw [ih]
        simp [List.any_cons, hd]
      · have hd : isDeleted io newFilename v = true := by
          simp [isDeleted, hc.1, hc.2, hr]
        have hr' : io.remove v.name = false := by simpa using hr
        simp only [deleteLoop, hc, removeFile, hr', if_true, ne_eq, not_false_eq_true, and_self,
          Bool.false_eq_true, if_false]
        rw [ih, List.filter_filter]
        apply List.filter_congr
        intro e _
        by_cases hn : e.name = v.name
        · simp [List.any_cons, hd, hn]
        · have hn' : ¬ v.name = e.name := fun h => hn h.symm
          simp [List.any_cons, hd, hn, hn']
    · have hd : isDeleted io newFilename v = false := by
        simp only [isDeleted]
        by_cases h1 : v.name = newFilename
        · simp [h1]
        · have h2 : isSnapshotFile v = false := by
            cases h : isSnapshotFile v
            · rfl
            · exact absurd ⟨h1, h⟩ hc
          simp [h2]
      simp only [deleteLoop, hc, if_false]
      rw [ih]
      simp [List.any_cons, hd]

theorem any_name_eq_of_nodup (q : DirEntry → Bool) (l : List DirEntry)
    (hnd : (l.map DirEntry.name).Nodup) (e : DirEntry) (he : e ∈ l) :
    l.any (fun v => q v && decide (v.name = e.name)) = q e := by
  induction l with
  | nil => simp at he
  | cons a t ih =>
    simp only [List.map_cons, List.nodup_cons] at hnd
    rcases List.mem_cons.mp he with h | h
    · subst h
      have hrest : t.any (fun v => q v && decide (v.name = e.name)) = false := by
        rw [List.any_eq_false]
        intro v hv
        have : v.name ≠ e.name := fun hh => hnd.1 (hh ▸ List.mem_map_of_mem _ hv)
        simp [this]
      simp [List.any_cons, hrest]
    · have hne : a.name ≠ e.name := fun hh => hnd.1 (hh ▸ List.mem_map_of_mem _ h)
      simp [List.any_cons, hne, ih hnd.2 h]

/-- With distinct names in the directory and the directory readable, `DeleteOldFiles`
leaves exactly the entries that are not snapshot files to delete. -/
theorem DeleteOldFiles_eq_filter (io : Faults) (fs : List DirEntry) (newFilename : GoString)
    (hnd : (fs.map DirEntry.name).Nodup) (h1 : io.openDir = false) (h2 : io.readdir = false) :
    DeleteOldFiles io fs newFilename = fs.filter (fun e => !isDeleted io newFilename e) := by
  simp only [DeleteOldFiles, h1, h2, if_false, Bool.false_eq_true]
  rw [deleteLoop_eq_filter]
  apply List.filter_congr
  intro e he
  rw [any_name_eq_of_nodup (isDeleted io newFilename) fs hnd e he]

theorem isSnapshotFile_of_name (now : Int) (e : DirEntry) (hn : e.name = snapshotName now)
    (hd : e.isDir = false) : isSnapshotFile e = true := by
  have h := isSnapshotFile_snapshotName now e.content
  simp only [isSnapshotFile] at h ⊢
  rw [hn, hd]
  simpa using h

theorem writeAtStart_map_name (data : Bytes) (filename : GoString) (fs : List DirEntry) :
    (writeAtStart data filename fs).map DirEntry.name = fs.map DirEntry.name := by
  induction fs with
  | nil => rfl
  | cons a t ih =>
    simp only [writeAtStart, List.map_cons] at ih ⊢
    rw [ih]
    by_cases h : a.name = filename <;> simp [h]

theorem mem_writeAtStart (data : Bytes) (filename : GoString) (fs : List DirEntry)
    (e : DirEntry) (he : e ∈ writeAtStart data filename fs) :
    ∃ e₀ ∈ fs, e.name = e₀.name ∧ e.isDir = e₀.isDir ∧ (e₀.name ≠ filename → e = e₀) := by
  simp only [writeAtStart, List.mem_map] at he
  obtain ⟨e₀, he₀, heq⟩ := he
  refine ⟨e₀, he₀, ?_⟩
  by_cases h : e₀.name = filename
  · simp only [h, if_true] at heq
    subst heq
    exact ⟨h.symm, rfl, fun hh => absurd h hh⟩
  · simp only [h, if_false] at heq
    subst heq
    exact ⟨rfl, rfl, fun _ => rfl⟩

/-- Without I/O failure, on a directory with distinct names in which no directory bears
the file name, `os.OpenFile` succeeds and leaves a directory with distinct names that
holds the name as a regular file and no directory entry that was not there before. -/
theorem openFile_noFaults (fs : List DirEntry) (filename : GoString)
    (hnd : (fs.map DirEntry.name).Nodup)
    (hdir : ∀ e ∈ fs, e.isDir = true → e.name ≠ filename) :
    ∃ fs1, openFile noFaults fs filename = some fs1
      ∧ (fs1.map DirEntry.name).Nodup
      ∧ filename ∈ fs1.map DirEntry.name
      ∧ (∀ e ∈ fs1, e.name = filename → e.isDir = false)
      ∧ (∀ e ∈ fs1, e.isDir = true → e ∈ fs) := by
  cases hfind : fs.find? (fun e => decide (e.name = filename)) with
  | none =>
    have hnot : ∀ e ∈ fs, e.name ≠ filename := by
      intro e he
      have := List.find?_eq_none.mp hfind e he
      simpa using this
    refine ⟨fs ++ [{ name := filename, isDir := false, content := [] }], ?_, ?_, ?_, ?_, ?_⟩
    · simp [openFile, noFaults, hfind]
    · rw [List.map_append, List.nodup_append]
      refine ⟨hnd, by simp, ?_⟩
      intro a ha hb
      simp only [List.map_cons, List.map_nil, List.mem_singleton] at hb
      obtain ⟨e, he, hen⟩ := List.mem_map.mp ha
      exact hnot e he (hen.trans hb)
    · simp
    · intro e he hn
      rcases List.mem_append.mp he with h | h
      · exact absurd hn (hnot e h)
      · simp only [List.mem_singleton] at h
        rw [h]
    · intro e he hd
      rcases List.mem_append.mp he with h | h
      · exact h
      · simp only [List.mem_singleton] at h
        rw [h] at hd
        simp at hd
  | some e₀ =>
    have hmem : e₀ ∈ fs := List.mem_of_find?_eq_some hfind
    have hname : e₀.name = filename := by
      have := List.find?_some hfind
      simpa using this
    have hreg : e₀.isDir = false := by
      cases h : e₀.isDir
      · rfl
      · exact absurd hname (hdir e₀ hmem h)
    refine ⟨fs, ?_, hnd, ?_, ?_, fun e he _ => he⟩
    · simp [openFile, noFaults, hfind, hreg]
    · exact hname ▸ List.mem_map_of_mem _ hmem
    · intro e he hn
      have : e = e₀ := List.inj_on_of_nodup_map hnd he hmem (hn.trans hname.symm)
      rw [this]; exact hreg

theorem filter_name_eq_of_nodup (l : List DirEntry) (n : GoString)
    (hnd : (l.map DirEntry.name).Nodup) (hmem : n ∈ l.map DirEntry.name) :
    (l.filter (fun e => decide (e.name = n))).map DirEntry.name = [n] := by
  induction l with
  | nil => simp at hmem
  | cons a t ih =>
    simp only [List.map_cons, List.nodup_cons] at hnd
    by_cases ha : a.name = n
    · have hrest : t.filter (fun e => decide (e.name = n)) = [] := by
        rw [List.filter_eq_nil_iff]
        intro e he
        have : e.name ≠ n := fun hh => hnd.1 (ha ▸ hh ▸ List.mem_map_of_mem _ he)
        simp [this]
      simp [List.filter_cons, ha, hrest]
    · have hmem' : n ∈ t.map DirEntry.name := by
        simp only [List.map_cons, List.mem_cons] at hmem
        rcases hmem with h | h
        · exact absurd h.symm ha
        · exact h
      simp [List.filter_cons, ha, ih hnd.2 hmem']

/-- One call of `Persist` that is not skipped, without I/O failure, on a directory with
distinct names in which no directory bears the new file name: it returns the new name,
retains the new hash, and leaves a directory with distinct names whose only snapshot file
is the new one and whose directories were all there before. -/
theorem Persist_written (p : FSPersistance) (now : Int) (fs : List DirEntry) (m : GoMap)
    (hnd : (fs.map DirEntry.name).Nodup)
    (hdir : ∀ e ∈ fs, e.isDir = true → e.name ≠ snapshotName now)
    (hne : p.latesHash ≠ snapshotHash m) :
    (Persist p noFaults now fs m).filename = snapshotName now
    ∧ (Persist p noFaults now fs m).engine = { p with latesHash := snapshotHash m }
    ∧ ((Persist p noFaults now fs m).files.map DirEntry.name).Nodup
    ∧ ((Persist p noFaults now fs m).files.filter (fun v => isSnapshotFile v)).map DirEntry.name
        = [snapshotName now]
    ∧ (∀ e ∈ (Persist p noFaults now fs m).files, e.isDir = true → e ∈ fs) := by
  obtain ⟨fs1, hopen, hnd1, hmem1, hreg1, hdir1⟩ := openFile_noFaults fs (snapshotName now) hnd hdir
  rw [Persist_write p noFaults now fs fs1 m hne hopen rfl]
  have hnd2 : ((writeAtStart (snapshotBytes m) (snapshotName now) fs1).map DirEntry.name).Nodup := by
    rw [writeAtStart_map_name]; exact hnd1
  rw [DeleteOldFiles_eq_filter noFaults _ (snapshotName now) hnd2 rfl rfl]
  refine ⟨rfl, rfl, ?_, ?_, ?_⟩
  · exact List.Nodup.sublist (List.Sublist.map _ (List.filter_sublist _)) hnd2
  · rw [List.filter_filter]
    have hcongr : (writeAtStart (snapshotBytes m) (snapshotName now) fs1).filter
          (fun a => isSnapshotFile a && !isDeleted noFaults (snapshotName now) a)
        = (writeAtStart (snapshotBytes m) (snapshotName now) fs1).filter
          (fun e => decide (e.name = snapshotName now)) := by
      apply List.filter_congr
      intro e he
      obtain ⟨e₀, he₀, hn, hd, _⟩ := mem_writeAtStart _ _ _ e he
      by_cases hname : e.name = snapshotName now
      · have hreg : e.isDir = false := by rw [hd]; exact hreg1 e₀ he₀ (hn ▸ hname)
        simp [isDeleted, hname, isSnapshotFile_of_name now e hname hreg]
      · cases hs : isSnapshotFile e <;> simp [isDeleted, hname, hs, noFaults]
    rw [hcongr]
    apply filter_name_eq_of_nodup _ _ hnd2
    rw [writeAtStart_map_name]; exact hmem1
  · intro e he hd
    have he2 := List.mem_of_mem_filter he
    obtain ⟨e₀, he₀, hn, hd0, heq⟩ := mem_writeAtStart _ _ _ e he2
    have hd0' : e₀.isDir = true := by rw [← hd0]; exact hd
    have hne0 : e₀.name ≠ snapshotName now := by
      intro hh
      have := hreg1 e₀ he₀ hh
      rw [this] at hd0'
      exact Bool.noConfusion hd0'
    rw [heq hne0]
    exact hdir1 e₀ he₀ hd0'

/-- C8, as stated, fails.  The mappings `{"key1": "joczw"}` and `{"key1": "pfbpa"}` differ
but their serializations have the same FNV-1a hash.  Persisted one after the other from a
fresh engine on an empty directory, without any failure, the second call is skipped: it
returns the empty string, and the one snapshot file on disk is the one the first call
wrote, not a file written by the last call. -/
theorem rotation_hash_collision :
    Dict.empty.set "key1".data "joczw".data ≠ Dict.empty.set "key1".data "pfbpa".data
    ∧ snapshotHash (GoMap.object (Dict.empty.set "key1".data "joczw".data))
        = snapshotHash (GoMap.object (Dict.empty.set "key1".data "pfbpa".data))
    ∧ (Persist
          (persistRun noFaults NewPersistance []
            [(100, GoMap.object (Dict.empty.set "key1".data "joczw".data))]).1
          noFaults 200
          (persistRun noFaults NewPersistance []
            [(100, GoMap.object (Dict.empty.set "key1".data "joczw".data))]).2
          (GoMap.object (Dict.empty.set "key1".data "pfbpa".data))).filename = []
    ∧ (persistRun noFaults NewPersistance []
          [(100, GoMap.object (Dict.empty.set "key1".data "joczw".data)),
           (200, GoMap.object (Dict.empty.set "key1".data "pfbpa".data))]).2.filter (fun v => isSnapshotFile v)
        = [regularFile "GOAPP-100.json" "\x7b\"key1\":\"joczw\"\x7d\n"]
    ∧ ((persistRun noFaults NewPersistance []
          [(100, GoMap.object (Dict.empty.set "key1".data "joczw".data)),
           (200, GoMap.object (Dict.empty.set "key1".data "pfbpa".data))]).2.filter
            (fun v => isSnapshotFile v)).map DirEntry.name ≠ [snapshotName 200] := by
  decide

/-- C8, amended.  Take a directory with distinct names, none of its directories bearing
the name of a snapshot to come, and `Persist` calls without I/O or deletion failure such
that the hash of each mapping differs from the hash retained when its call is made (the
engine's hash for the first call, the hash of the preceding mapping afterwards).  Then the
last call returns the name of its file, and after it exactly one snapshot file (regular
file `GOAPP*.json`) is in the directory: the file of that name. -/
theorem rotation_keeps_last (p : FSPersistance) (fs : List DirEntry)
    (calls : List (Int × GoMap)) (last : Int × GoMap)
    (hnd : (fs.map DirEntry.name).Nodup)
    (hdir : ∀ e ∈ fs, e.isDir = true → ∀ c ∈ calls ++ [last], e.name ≠ snapshotName c.1)
    (hchain : List.Chain (fun a b => a ≠ b) p.latesHash
      ((calls ++ [last]).map (fun c => snapshotHash c.2))) :
    (Persist (persistRun noFaults p fs calls).1 noFaults last.1
        (persistRun noFaults p fs calls).2 last.2).filename = snapshotName last.1
    ∧ ((persistRun noFaults p fs (calls ++ [last])).2.filter
          (fun v => isSnapshotFile v)).map DirEntry.name = [snapshotName last.1] := by
  induction calls generalizing p fs with
  | nil =>
    simp only [List.nil_append, List.map_cons, List.map_nil, List.chain_cons] at hchain
    have hd : ∀ e ∈ fs, e.isDir = true → e.name ≠ snapshotName last.1 :=
      fun e he h => hdir e he h last (by simp)
    have h := Persist_written p last.1 fs last.2 hnd hd hchain.1
    exact ⟨h.1, h.2.2.2.1⟩
  | cons c rest ih =>
    simp only [List.cons_append, List.map_cons, List.chain_cons] at hchain
    have hd : ∀ e ∈ fs, e.isDir = true → e.name ≠ snapshotName c.1 :=
      fun e he h => hdir e he h c (by simp)
    have h := Persist_written p c.1 fs c.2 hnd hd hchain.1
    have hstep := ih (Persist p noFaults c.1 fs c.2).engine (Persist p noFaults c.1 fs c.2).files
      h.2.2.1
      (fun e he hed x hx => hdir e (h.2.2.2.2 e he hed) hed x (by
        simp only [List.cons_append, List.mem_cons]; exact Or.inr hx))
      (by rw [h.2.1]; exact hchain.2)
    simpa only [persistRun, List.cons_append] using hstep

/-- Witness of `rotation_keeps_last`: three mappings persisted in turn, the first two
within the same second, on a directory that already holds an older snapshot, a file of
another program and a directory. -/
theorem rotation_keeps_last_witness :
    ((persistRun noFaults NewPersistance
          [regularFile "GOAPP-99.json" "\x7b\x7d\n",
           regularFile "notes.txt" "",
           subdirectory "GOAPP-old.json"]
          ([(100, GoMap.object (Dict.empty.set "key1".data "value1".data)), (100, GoMap.object Dict.empty)]
            ++ [(101, GoMap.object (Dict.empty.set "key1".data "value2".data))])).2.filter
        (fun v => isSnapshotFile v)).map DirEntry.name = ["GOAPP-101.json".data] :=
  (rotation_keeps_last NewPersistance
    [regularFile "GOAPP-99.json" "\x7b\x7d\n",
     regularFile "notes.txt" "",
     subdirectory "GOAPP-old.json"]
    [(100, GoMap.object (Dict.empty.set "key1".data "value1".data)), (100, GoMap.object Dict.empty)]
    (101, GoMap.object (Dict.empty.set "key1".data "value2".data))
    (by decide) (by decide)
    (List.Chain.cons (by decide) (List.Chain.cons (by decide)
      (List.Chain.cons (by decide) List.Chain.nil)))).2

theorem selectLatest_append (xs ys : List DirEntry) (acc : GoString × Nat) :
    selectLatest (xs ++ ys) acc = selectLatest ys (selectLatest xs acc) := by
  induction xs generalizing acc with
  | nil => rfl
  | cons v t ih =>
    obtain ⟨n, ts⟩ := acc
    simp only [List.cons_append, selectLatest]
    split_ifs <;> exact ih _

/-- The selection keeps its current choice across files none of which has a larger
timestamp. -/
theorem selectLatest_of_le (xs : List DirEntry) (n : GoString) (ts : Nat)
    (h : ∀ v ∈ xs, isSnapshotFile v = true → timestampOf v.name ≤ ts) :
    selectLatest xs (n, ts) = (n, ts) := by
  induction xs with
  | nil => rfl
  | cons v t ih =>
    have hrest := ih (fun w hw => h w (List.mem_cons_of_mem _ hw))
    simp only [selectLatest]
    by_cases hs : isSnapshotFile v = true
    · have hle := h v (List.mem_cons_self _ _) hs
      have hnot : ¬ timestampOf v.name > ts := Nat.not_lt.mpr hle
      simp only [hs, hnot, if_true, if_false]
      exact hrest
    · simp only [hs, if_false]
      exact hrest

theorem selectLatest_lt (xs : List DirEntry) (n : GoString) (ts bound : Nat)
    (h : ∀ v ∈ xs, isSnapshotFile v = true → timestampOf v.name < bound) (hts : ts < bound) :
    (selectLatest xs (n, ts)).2 < bound := by
  induction xs generalizing n ts with
  | nil => exact hts
  | cons v t ih =>
    have hrest : ∀ w ∈ t, isSnapshotFile w = true → timestampOf w.name < bound :=
      fun w hw => h w (List.mem_cons_of_mem _ hw)
    simp only [selectLatest]
    by_cases hs : isSnapshotFile v = true
    · by_cases hgt : timestampOf v.name > ts
      · simp only [hs, hgt, if_true]
        exact ih _ _ hrest (h v (List.mem_cons_self _ _) hs)
      · simp only [hs, hgt, if_true, if_false]
        exact ih _ _ hrest hts
    · simp only [hs, if_false]
      exact ih _ _ hrest hts

theorem selectLatest_ge (xs : List DirEntry) (n : GoString) (ts : Nat) :
    ts ≤ (selectLatest xs (n, ts)).2
    ∧ ∀ v ∈ xs, isSnapshotFile v = true → timestampOf v.name ≤ (selectLatest xs (n, ts)).2 := by
  induction xs generalizing n ts with
  | nil => exact ⟨le_refl _, fun v hv => absurd hv (List.not_mem_nil v)⟩
  | cons v t ih =>
    simp only [selectLatest]
    by_cases hs : isSnapshotFile v = true
    · by_cases hgt : timestampOf v.name > ts
      · simp only [hs, hgt, if_true]
        have h := ih v.name (timestampOf v.name)
        refine ⟨le_trans (Nat.le_of_lt hgt) h.1, ?_⟩
        intro w hw hws
        rcases List.mem_cons.mp hw with hw | hw
        · rw [hw]; exact h.1
        · exact h.2 w hw hws
      · simp only [hs, hgt, if_true, if_false]
        have h := ih n ts
        refine ⟨h.1, ?_⟩
        intro w hw hws
        rcases List.mem_cons.mp hw with hw | hw
        · rw [hw]; exact le_trans (Nat.not_lt.mp hgt) h.1
        · exact h.2 w hw hws
    · simp only [hs, if_false]
      have h := ih n ts
      refine ⟨h.1, ?_⟩
      intro w hw hws
      rcases List.mem_cons.mp hw with hw | hw
      · rw [hw] at hws; exact absurd hws hs
      · exact h.2 w hw hws

theorem selectLatest_eq_zero_iff (fs : List DirEntry) :
    (selectLatest fs ([], 0)).2 = 0
      ↔ ∀ v ∈ fs, isSnapshotFile v = true → timestampOf v.name = 0 := by
  constructor
  · intro h v hv hs
    have := (selectLatest_ge fs [] 0).2 v hv hs
    rw [h] at this
    exact Nat.le_zero.mp this
  · intro h
    rw [selectLatest_of_le fs [] 0 (fun v hv hs => Nat.le_of_eq (h v hv hs))]

theorem readSnapshot_ne_notFound (io : Faults) (fs : List DirEntry) (n : GoString) :
    (∃ d, readSnapshot io fs n = Except.ok d)
      ∨ readSnapshot io fs n = Except.error RestoreError.readFile
      ∨ readSnapshot io fs n = Except.error RestoreError.unmarshal := by
  unfold readSnapshot
  cases hr : readFile io fs n with
  | none => exact Or.inr (Or.inl rfl)
  | some buf =>
    cases hu : jsonUnmarshal buf with
    | error e => exact Or.inr (Or.inr (by simp [hu]))
    | ok d => exact Or.inl ⟨d, by simp [hu]⟩

/-- C9, as stated, fails.  In the listing that holds the one regular file `GOAPP-0.json`
(content `{}`), that file is the candidate with the largest embedded timestamp, and
reading it would yield the empty mapping; `RestoreFromPersistance` reads no file and
returns the "not found" error. -/
theorem restore_ignores_zero_timestamp :
    isSnapshotFile (regularFile "GOAPP-0.json" "\x7b\x7d\n") = true
    ∧ timestampOf "GOAPP-0.json".data = 0
    ∧ selectLatest [regularFile "GOAPP-0.json" "\x7b\x7d\n"] ([], 0) = ([], 0)
    ∧ readSnapshot noFaults [regularFile "GOAPP-0.json" "\x7b\x7d\n"] "GOAPP-0.json".data
        = Except.ok (GoMap.object Dict.empty)
    ∧ RestoreFromPersistance noFaults [regularFile "GOAPP-0.json" "\x7b\x7d\n"]
        = Except.error RestoreError.notFound := by
  decide

/-- C9, amended.  Let the directory be readable and let `f` be a candidate (regular file,
name starting with `GOAPP` and ending with `.json`) whose timestamp, as the code parses
it, is positive, larger than that of every candidate listed before it and at least that of
every candidate listed after it.  Then the selection loop ends on `f` and
`RestoreFromPersistance` returns what reading and unmarshalling `f` returns. -/
theorem restore_reads_first_latest (io : Faults) (pre post : List DirEntry) (f : DirEntry)
    (hopen : io.openDir = false) (hlist : io.readdir = false)
    (hf : isSnapshotFile f = true) (hpos : 0 < timestampOf f.name)
    (hpre : ∀ g ∈ pre, isSnapshotFile g = true → timestampOf g.name < timestampOf f.name)
    (hpost : ∀ g ∈ post, isSnapshotFile g = true → timestampOf g.name ≤ timestampOf f.name) :
    selectLatest (pre ++ f :: post) ([], 0) = (f.name, timestampOf f.name)
    ∧ RestoreFromPersistance io (pre ++ f :: post)
        = readSnapshot io (pre ++ f :: post) f.name := by
  have hsel : selectLatest (pre ++ f :: post) ([], 0) = (f.name, timestampOf f.name) := by
    rw [selectLatest_append]
    have hlt := selectLatest_lt pre [] 0 (timestampOf f.name) hpre hpos
    generalize selectLatest pre ([], 0) = acc at hlt
    obtain ⟨n, ts⟩ := acc
    have hgt : timestampOf f.name > ts := hlt
    simp only [selectLatest, hf, hgt, if_true]
    exact selectLatest_of_le post f.name (timestampOf f.name) hpost
  refine ⟨hsel, ?_⟩
  have hne : ¬ timestampOf f.name = 0 := Nat.pos_iff_ne_zero.mp hpos
  simp [RestoreFromPersistance, hopen, hlist, hsel, hne]

/-- Witness of `restore_reads_first_latest`: two files share the largest timestamp, after
an older snapshot and around a file with an unreadable timestamp and a directory; the
first of the two is read. -/
theorem restore_reads_first_latest_witness :
    RestoreFromPersistance noFaults
        ([regularFile "GOAPP-100.json" "\x7b\x7d\n",
          subdirectory "GOAPP-999.json"]
          ++ regularFile "GOAPP-200.json" "\x7b\"key1\":\"value1\"\x7d\n"
            :: [regularFile "GOAPP-x.json" "",
                regularFile "GOAPP-0200.json" "\x7b\"key2\":\"value2\"\x7d\n"])
      = Except.ok (GoMap.object (Dict.empty.set "key1".data "value1".data)) :=
  (restore_reads_first_latest noFaults
    [regularFile "GOAPP-100.json" "\x7b\x7d\n",
     subdirectory "GOAPP-999.json"]
    [regularFile "GOAPP-x.json" "",
     regularFile "GOAPP-0200.json" "\x7b\"key2\":\"value2\"\x7d\n"]
    (regularFile "GOAPP-200.json" "\x7b\"key1\":\"value1\"\x7d\n")
    rfl rfl (by decide) (by decide) (by decide) (by decide)).2.trans (by decide)

/-- C10, as stated, fails.  The directory holds a regular file matching the naming
convention, `GOAPP-backup.json`, with a well-formed snapshot in it, and
`RestoreFromPersistance` returns the "not found" error: the name carries no number. -/
theorem restore_notFound_with_candidate :
    isSnapshotFile (regularFile "GOAPP-backup.json" "\x7b\"key1\":\"value1\"\x7d\n") = true
    ∧ RestoreFromPersistance noFaults
        [regularFile "GOAPP-backup.json" "\x7b\"key1\":\"value1\"\x7d\n"]
      = Except.error RestoreError.notFound := by
  decide

/-- C10, amended.  `RestoreFromPersistance` returns the "not found" error exactly when the
directory can be opened and listed and no candidate file has a name whose timestamp, as
the code parses it, is positive (in particular when there is no candidate at all).
Whenever the directory can be opened and listed and some candidate has a positive
timestamp, the outcome is a restored mapping, a read failure or an unmarshalling failure. -/
theorem restore_notFound_iff (io : Faults) (fs : List DirEntry) :
    (RestoreFromPersistance io fs = Except.error RestoreError.notFound
      ↔ (io.openDir = false ∧ io.readdir = false
          ∧ ∀ v ∈ fs, isSnapshotFile v = true → timestampOf v.name = 0))
    ∧ (io.openDir = false → io.readdir = false
        → (∃ v ∈ fs, isSnapshotFile v = true ∧ 0 < timestampOf v.name)
        → (∃ d, RestoreFromPersistance io fs = Except.ok d)
          ∨ RestoreFromPersistance io fs = Except.error RestoreError.readFile
          ∨ RestoreFromPersistance io fs = Except.error RestoreError.unmarshal) := by
  have hzero := selectLatest_eq_zero_iff fs
  constructor
  · by_cases h1 : io.openDir = true
    · simp [RestoreFromPersistance, h1]
    · by_cases h2 : io.readdir = true
      · simp [RestoreFromPersistance, h1, h2]
      · have h1' : io.openDir = false := by simpa using h1
        have h2' : io.readdir = false := by simpa using h2
        by_cases h3 : (selectLatest fs ([], 0)).2 = 0
        · simp only [RestoreFromPersistance, h1', h2', h3, if_true, if_false,
            Bool.false_eq_true, true_and, true_iff]
          exact hzero.mp h3
        · have hno : ¬ ∀ v ∈ fs, isSnapshotFile v = true → timestampOf v.name = 0 :=
            fun h => h3 (hzero.mpr h)
          simp only [RestoreFromPersistance, h1', h2', h3, if_false, Bool.false_eq_true,
            true_and, hno, iff_false]
          rcases readSnapshot_ne_notFound io fs (selectLatest fs ([], 0)).1 with ⟨d, h⟩ | h | h
            <;> rw [h] <;> simp
  · intro h1 h2 ⟨v, hv, hs, hpos⟩
    have h3 : ¬ (selectLatest fs ([], 0)).2 = 0 := by
      intro h0
      have := hzero.mp h0 v hv hs
      omega
    simp only [RestoreFromPersistance, h1, h2, h3, if_false, Bool.false_eq_true]
    exact readSnapshot_ne_notFound io fs _

/-! ## The round trip through `Persist` and `RestoreFromPersistance` -/

theorem char_valid_range (c : Char) :
    c.toNat < 0xD800 ∨ (0xDFFF < c.toNat ∧ c.toNat < 0x110000) := by
  have h := c.valid
  simp only [Char.toNat, UInt32.isValidChar, Nat.isValidChar] at h ⊢
  omega

theorem utf8DecodeRune_encode (c : Char) (rest : Bytes) :
    utf8DecodeRune (utf8EncodeChar c ++ rest) = (c, (utf8EncodeChar c).length) := by
  have hv := char_valid_range c
  have hc : Char.ofNat c.toNat = c := Char.ofNat_toNat c
  unfold utf8EncodeChar
  generalize c.toNat = n at hv hc ⊢
  by_cases h1 : n < 0x80
  · simp [h1, utf8DecodeRune, hc]
  · by_cases h2 : n < 0x800
    · have e1 : (0xC0 + n / 0x40 - 0xC0) * 0x40 + (0x80 + n % 0x40 - 0x80) = n := by omega
      have a1 : ¬ (0xC0 + n / 0x40 < 0x80) := by omega
      have a3 : isCont (0x80 + n % 0x40) = true := by simp [isCont]; omega
      have a2 : 0xC2 ≤ 0xC0 + n / 0x40 ∧ 0xC0 + n / 0x40 ≤ 0xDF
          ∧ isCont (0x80 + n % 0x40) = true := ⟨by omega, by omega, a3⟩
      simp only [h1, h2, if_true, if_false, List.cons_append, List.nil_append, utf8DecodeRune,
        List.getD_cons_zero, List.length_cons, List.length_nil]
      rw [if_neg a1, if_pos a2, e1, hc]
    · by_cases h3 : n < 0x10000
      · have e1 : (0xE0 + n / 0x1000 - 0xE0) * 0x1000 + (0x80 + n / 0x40 % 0x40 - 0x80) * 0x40
            + (0x80 + n % 0x40 - 0x80) = n := by omega
        have a1 : ¬ (0xE0 + n / 0x1000 < 0x80) := by omega
        have a2 : ¬ (0xC2 ≤ 0xE0 + n / 0x1000 ∧ 0xE0 + n / 0x1000 ≤ 0xDF
            ∧ isCont (0x80 + n / 0x40 % 0x40) = true) := by omega
        have a4 : isCont (0x80 + n / 0x40 % 0x40) = true := by simp [isCont]; omega
        have a5 : isCont (0x80 + n % 0x40) = true := by simp [isCont]; omega
        have a3 : 0xE0 ≤ 0xE0 + n / 0x1000 ∧ 0xE0 + n / 0x1000 ≤ 0xEF
            ∧ isCont (0x80 + n / 0x40 % 0x40) = true ∧ isCont (0x80 + n % 0x40) = true
            ∧ (0xE0 + n / 0x1000 = 0xE0 → 0xA0 ≤ 0x80 + n / 0x40 % 0x40)
            ∧ (0xE0 + n / 0x1000 = 0xED → 0x80 + n / 0x40 % 0x40 ≤ 0x9F) :=
          ⟨by omega, by omega, a4, a5, by omega, by omega⟩
        simp only [h1, h2, h3, if_true, if_false, List.cons_append, List.nil_append,
          utf8DecodeRune, List.getD_cons_zero, List.getD_cons_succ, List.length_cons,
          List.length_nil]
        rw [if_neg a1, if_neg a2, if_pos a3, e1, hc]
      · have e1 : (0xF0 + n / 0x40000 - 0xF0) * 0x40000 + (0x80 + n / 0x1000 % 0x40 - 0x80) * 0x1000
            + (0x80 + n / 0x40 % 0x40 - 0x80) * 0x40 + (0x80 + n % 0x40 - 0x80) = n := by omega
        have a1 : ¬ (0xF0 + n / 0x40000 < 0x80) := by omega
        have a2 : ¬ (0xC2 ≤ 0xF0 + n / 0x40000 ∧ 0xF0 + n / 0x40000 ≤ 0xDF
            ∧ isCont (0x80 + n / 0x1000 % 0x40) = true) := by omega
        have a2' : ¬ (0xE0 ≤ 0xF0 + n / 0x40000 ∧ 0xF0 + n / 0x40000 ≤ 0xEF
            ∧ isCont (0x80 + n / 0x1000 % 0x40) = true
            ∧ isCont (0x80 + n / 0x40 % 0x40) = true
            ∧ (0xF0 + n / 0x40000 = 0xE0 → 0xA0 ≤ 0x80 + n / 0x1000 % 0x40)
            ∧ (0xF0 + n / 0x40000 = 0xED → 0x80 + n / 0x1000 % 0x40 ≤ 0x9F)) := by omega
        have a4 : isCont (0x80 + n / 0x1000 % 0x40) = true := by simp [isCont]; omega
        have a5 : isCont (0x80 + n / 0x40 % 0x40) = true := by simp [isCont]; omega
        have a5' : isCont (0x80 + n % 0x40) = true := by simp [isCont]; omega
        have a3 : 0xF0 ≤ 0xF0 + n / 0x40000 ∧ 0xF0 + n / 0x40000 ≤ 0xF4
            ∧ isCont (0x80 + n / 0x1000 % 0x40) = true
            ∧ isCont (0x80 + n / 0x40 % 0x40) = true ∧ isCont (0x80 + n % 0x40) = true
            ∧ (0xF0 + n / 0x40000 = 0xF0 → 0x90 ≤ 0x80 + n / 0x1000 % 0x40)
            ∧ (0xF0 + n / 0x40000 = 0xF4 → 0x80 + n / 0x1000 % 0x40 ≤ 0x8F) :=
          ⟨by omega, by omega, a4, a5, a5', by omega, by omega⟩
        simp only [h1, h2, h3, if_true, if_false, List.cons_append, List.nil_append,
          utf8DecodeRune, List.getD_cons_zero, List.getD_cons_succ, List.length_cons,
          List.length_nil]
        rw [if_neg a1, if_neg a2, if_neg a2', if_pos a3, e1, hc]

theorem utf8EncodeChar_length_pos (c : Char) : 0 < (utf8EncodeChar c).length := by
  unfold utf8EncodeChar
  split_ifs <;> simp

theorem utf8DecodeFrom_skip (pre rest : Bytes) :
    utf8DecodeFrom pre.length (pre ++ rest) = utf8DecodeFrom 0 rest := by
  induction pre with
  | nil => rfl
  | cons b t ih => simpa [utf8DecodeFrom] using ih

theorem utf8Decode_encode_append (cs : GoString) (rest : Bytes) :
    utf8Decode (utf8Encode cs ++ rest) = cs ++ utf8Decode rest := by
  induction cs with
  | nil => rfl
  | cons c t ih =>
    simp only [utf8Decode] at ih ⊢
    simp only [utf8Encode, List.append_assoc, List.cons_append]
    have hpos := utf8EncodeChar_length_pos c
    have hdec := utf8DecodeRune_encode c (utf8Encode t ++ rest)
    obtain ⟨b, bs, hb⟩ : ∃ b bs, utf8EncodeChar c = b :: bs := by
      cases h : utf8EncodeChar c with
      | nil => rw [h] at hpos; simp at hpos
      | cons b bs => exact ⟨b, bs, rfl⟩
    rw [hb] at hdec ⊢
    simp only [List.cons_append] at hdec ⊢
    rw [utf8DecodeFrom, hdec]
    simp only [List.length_cons, Nat.add_sub_cancel]
    rw [utf8DecodeFrom_skip, ih]

theorem hexVal_hexDigit : ∀ k, k < 16 → hexVal (hexDigit k) = some k := by decide

theorem hex4_low (a b : Nat) (ha : a < 16) (hb : b < 16) :
    hex4 '0' '0' (hexDigit a) (hexDigit b) = some (a * 16 + b) := by
  have h0 : hexVal '0' = some 0 := by decide
  simp [hex4, hexVal_hexDigit a ha, hexVal_hexDigit b hb, h0]

theorem hex4_202 (b : Nat) (hb : b < 16) :
    hex4 '2' '0' '2' (hexDigit b) = some (0x2020 + b) := by
  have h2 : hexVal '2' = some 2 := by decide
  have h0 : hexVal '0' = some 0 := by decide
  simp [hex4, hexVal_hexDigit b hb, h2, h0]

theorem unquoteFrom_skip (pre rest : List Char) :
    unquoteFrom pre.length (pre ++ rest) = unquoteFrom 0 rest := by
  induction pre with
  | nil => rfl
  | cons b t ih => simpa [unquoteFrom] using ih

theorem unquoteFrom_escape (e : List Char) (ch : Char) (tail : List Char)
    (h : readEscape (e ++ tail) = some (ch, e.length)) :
    unquoteFrom 0 ('\\' :: (e ++ tail)) = pushChar ch (unquoteFrom 0 tail) := by
  have h1 : ¬ ('\\' = '"') := by decide
  rw [unquoteFrom]
  simp only [h1, if_false, if_true, h]
  rw [unquoteFrom_skip]

theorem readEscape_u (a b c d : Char) (rest : List Char) (rr : Nat)
    (h : hex4 a b c d = some rr) (hns : ¬ (0xD800 ≤ rr ∧ rr < 0xE000)) :
    readEscape ('u' :: a :: b :: c :: d :: rest) = some (Char.ofNat rr, 5) := by
  simp only [readEscape, if_true, h]
  rw [if_neg hns]

theorem unquoteFrom_encodeChar (c : Char) (tail : List Char) :
    unquoteFrom 0 (encodeChar c ++ tail) = pushChar c (unquoteFrom 0 tail) := by
  have hc : Char.ofNat c.toNat = c := Char.ofNat_toNat c
  unfold encodeChar
  by_cases h1 : c = '"' ∨ c = '\\'
  · rw [if_pos h1]
    apply unquoteFrom_escape [c] c tail
    rcases h1 with h | h <;> subst h <;> simp [readEscape, simpleEscape]
  · rw [if_neg h1]
    have h1a : ¬ c = '"' := fun h => h1 (Or.inl h)
    have h1b : ¬ c = '\\' := fun h => h1 (Or.inr h)
    by_cases h2 : c = '\n'
    · rw [if_pos h2]; subst h2
      exact unquoteFrom_escape ['n'] '\n' tail (by simp [readEscape, simpleEscape])
    · rw [if_neg h2]
      by_cases h3 : c = '\r'
      · rw [if_pos h3]; subst h3
        exact unquoteFrom_escape ['r'] '\r' tail (by simp [readEscape, simpleEscape])
      · rw [if_neg h3]
        by_cases h4 : c = '\t'
        · rw [if_pos h4]; subst h4
          exact unquoteFrom_escape ['t'] '\t' tail (by simp [readEscape, simpleEscape])
        · rw [if_neg h4]
          by_cases h5 : c.toNat < 0x20 ∨ c = '<' ∨ c = '>' ∨ c = '&'
          · rw [if_pos h5]
            have hlt : c.toNat < 0x40 := by
              rcases h5 with h | h | h | h
              · omega
              · subst h; decide
              · subst h; decide
              · subst h; decide
            have hex := hex4_low (c.toNat / 16) (c.toNat % 16) (by omega) (by omega)
            have hval : c.toNat / 16 * 16 + c.toNat % 16 = c.toNat := by omega
            rw [hval] at hex
            have := unquoteFrom_escape
              ['u', '0', '0', hexDigit (c.toNat / 16), hexDigit (c.toNat % 16)] c tail (by
                have hr := readEscape_u '0' '0' (hexDigit (c.toNat / 16))
                  (hexDigit (c.toNat % 16)) tail c.toNat hex (by omega)
                rw [hc] at hr
                exact hr)
            exact this
          · rw [if_neg h5]
            by_cases h6 : c.toNat = 0x2028 ∨ c.toNat = 0x2029
            · rw [if_pos h6]
              have hex := hex4_202 (c.toNat % 16) (by omega)
              have hval : 0x2020 + c.toNat % 16 = c.toNat := by omega
              rw [hval] at hex
              have := unquoteFrom_escape
                ['u', '2', '0', '2', hexDigit (c.toNat % 16)] c tail (by
                  have hr := readEscape_u '2' '0' '2' (hexDigit (c.toNat % 16)) tail c.toNat hex
                    (by omega)
                  rw [hc] at hr
                  exact hr)
              exact this
            · rw [if_neg h6]
              have h7 : ¬ c.toNat < 0x20 := fun h => h5 (Or.inl h)
              simp only [List.cons_append, List.nil_append]
              rw [unquoteFrom]
              simp only [h1a, h1b, h7, if_false]

theorem unquoteBody_encodeBody (s : GoString) (rest : List Char) :
    unquoteBody (encodeBody s ++ '"' :: rest) = some (s, rest) := by
  unfold unquoteBody
  induction s with
  | nil => simp [encodeBody, unquoteFrom]
  | cons c t ih =>
    simp only [encodeBody, List.append_assoc]
    rw [unquoteFrom_encodeChar, ih]
    rfl

theorem skipSpace_cons (c : Char) (r : List Char) (h : isSpace c = false) :
    skipSpace (c :: r) = c :: r := by
  simp [skipSpace, h]

theorem decodeValue_encodeString (v : GoString) (rest : List Char) :
    decodeValue (encodeString v ++ rest) = some (v, rest) := by
  simp only [encodeString, List.cons_append, List.append_assoc, decodeValue, if_true]
  exact unquoteBody_encodeBody v rest

theorem decodeMembers_member (fuel : Nat) (k v : GoString) (sep : Char) (r4 : List Char)
    (m₀ : Dict) (hsep : isSpace sep = false) :
    decodeMembers (fuel + 1)
        ('"' :: (encodeBody k ++ '"' :: ':' :: '"' :: (encodeBody v ++ '"' :: sep :: r4))) m₀
      = if sep = ',' then decodeMembers fuel (skipSpace r4) (m₀.set k v)
        else if sep = '}' then some (m₀.set k v, r4) else none := by
  have hq : isSpace '"' = false := by decide
  have hcolon : isSpace ':' = false := by decide
  rw [decodeMembers]
  simp only [if_true]
  rw [unquoteBody_encodeBody]
  simp only [skipSpace_cons _ _ hcolon, if_true, skipSpace_cons _ _ hq, decodeValue]
  rw [unquoteBody_encodeBody]
  simp only [skipSpace_cons _ _ hsep]

theorem encodeEntries_cons_cons (kv kv' : GoString × GoString)
    (t : List (GoString × GoString)) (rest : List Char) :
    encodeEntries (kv :: kv' :: t) ++ rest
      = '"' :: (encodeBody kv.1 ++ '"' :: ':' :: '"' :: (encodeBody kv.2 ++ '"' :: ','
          :: (encodeEntries (kv' :: t) ++ rest))) := by
  simp [encodeEntries, encodeString]

theorem encodeEntries_singleton (kv : GoString × GoString) (rest : List Char) :
    encodeEntries [kv] ++ rest
      = '"' :: (encodeBody kv.1 ++ '"' :: ':' :: '"' :: (encodeBody kv.2 ++ '"' :: rest)) := by
  simp [encodeEntries, encodeString]

/-- Reading back the members `json.Marshal` wrote assigns them to the map in order. -/
theorem decodeMembers_encodeEntries (es : List (GoString × GoString)) (hne : es ≠ [])
    (fuel : Nat) (hfuel : es.length ≤ fuel) (m₀ : Dict) (rest : List Char) :
    decodeMembers fuel (encodeEntries es ++ '}' :: rest) m₀
      = some (es.foldl (fun m kv => m.set kv.1 kv.2) m₀, rest) := by
  have hq : isSpace '"' = false := by decide
  have hcomma : isSpace ',' = false := by decide
  have hbrace : isSpace '}' = false := by decide
  have hne1 : ¬ ('}' = ',') := by decide
  induction es generalizing fuel m₀ with
  | nil => exact absurd rfl hne
  | cons kv t ih =>
    cases fuel with
    | zero => simp at hfuel
    | succ fuel =>
      cases t with
      | nil =>
        rw [encodeEntries_singleton, decodeMembers_member fuel kv.1 kv.2 '}' rest m₀ hbrace]
        simp only [hne1, if_false, if_true, List.foldl_cons, List.foldl_nil]
      | cons kv' t' =>
        have hlen : (kv' :: t').length ≤ fuel := by
          simp only [List.length_cons] at hfuel ⊢
          omega
        have hrec := ih (by simp) fuel hlen (m₀.set kv.1 kv.2)
        have hskip : skipSpace (encodeEntries (kv' :: t') ++ '}' :: rest)
            = encodeEntries (kv' :: t') ++ '}' :: rest := by
          cases t' with
          | nil => rw [encodeEntries_singleton]; exact skipSpace_cons _ _ hq
          | cons a b => rw [encodeEntries_cons_cons]; exact skipSpace_cons _ _ hq
        rw [encodeEntries_cons_cons,
          decodeMembers_member fuel kv.1 kv.2 ',' _ m₀ hcomma]
        simp only [if_true, hskip, List.foldl_cons]
        exact hrec

theorem lookupEntry_mem (k : GoString) (l : List (GoString × GoString)) (v : GoString)
    (h : lookupEntry k l = some v) : (k, v) ∈ l := by
  induction l with
  | nil => simp [lookupEntry] at h
  | cons a t ih =>
    obtain ⟨k', v'⟩ := a
    by_cases hk : k = k'
    · simp only [lookupEntry, hk, if_true, Option.some.injEq] at h
      rw [hk, h]; exact List.mem_cons_self _ _
    · simp only [lookupEntry, hk, if_false] at h
      exact List.mem_cons_of_mem _ (ih h)

theorem lookupEntry_none_not_mem (k : GoString) (l : List (GoString × GoString))
    (h : lookupEntry k l = none) : k ∉ l.map Prod.fst := by
  induction l with
  | nil => simp
  | cons a t ih =>
    obtain ⟨k', v'⟩ := a
    by_cases hk : k = k'
    · simp [lookupEntry, hk] at h
    · simp only [lookupEntry, hk, if_false] at h
      simp only [List.map_cons, List.mem_cons, not_or]
      exact ⟨hk, ih h⟩

/-- Assigning the entries of a map, in order, to an empty map gives the map back. -/
theorem foldl_set_entries (m : Dict) :
    m.entries.foldl (fun d kv => d.set kv.1 kv.2) Dict.empty = m := by
  apply Dict.ext_get
  intro k
  have hnd : (m.entries.map Prod.fst).Nodup := by
    have h := m.ordered
    unfold Ordered at h
    unfold List.Nodup
    rw [List.pairwise_map]
    exact h.imp (fun hlt => ne_of_lt hlt)
  cases hl : lookupEntry k m.entries with
  | none =>
    rw [get_foldl_set_of_not_mem _ _ _ (lookupEntry_none_not_mem k _ hl)]
    simp [Dict.get?, hl, Dict.empty, lookupEntry]
  | some v =>
    have := get_foldl_set_of_mem m.entries Dict.empty hnd (k, v) (lookupEntry_mem k _ v hl)
    simp only at this
    rw [this]
    simp [Dict.get?, hl]

theorem length_le_encodeEntries (es : List (GoString × GoString)) (rest : List Char) :
    es.length ≤ (encodeEntries es ++ rest).length := by
  induction es with
  | nil => simp
  | cons kv t ih =>
    cases t with
    | nil => rw [encodeEntries_singleton]; simp
    | cons kv' t' =>
      rw [encodeEntries_cons_cons]
      simp only [List.length_cons, List.length_append] at ih ⊢
      omega

/-- The serialization of a map object, followed by a line feed, is read back as a map
object with the same entries. -/
theorem decodeDocument_marshalText (m : Dict) :
    decodeDocument (marshalText m ++ ['\n']) = some (GoMap.object m) := by
  have hbrace : isSpace '{' = false := by decide
  have hclose : isSpace '}' = false := by decide
  have hq : isSpace '"' = false := by decide
  have hnl : skipSpace ['\n'] = [] := by decide
  obtain ⟨es, hes⟩ := m
  cases es with
    | nil =>
      have : marshalText ⟨[], hes⟩ ++ ['\n'] = '{' :: '}' :: ['\n'] := by
        simp [marshalText, encodeEntries]
      rw [this, decodeDocument, skipSpace_cons _ _ hbrace]
      simp only [if_true, skipSpace_cons _ _ hclose, hnl]
      rfl
    | cons kv t =>
      have hstart : ∃ r, encodeEntries (kv :: t) ++ '}' :: ['\n'] = '"' :: r := by
        cases t with
        | nil => exact ⟨_, encodeEntries_singleton kv _⟩
        | cons a b => exact ⟨_, encodeEntries_cons_cons kv a b _⟩
      obtain ⟨r, hr⟩ := hstart
      have hmem := decodeMembers_encodeEntries (kv :: t) (by simp)
        (encodeEntries (kv :: t) ++ '}' :: ['\n']).length
        (length_le_encodeEntries (kv :: t) _) Dict.empty ['\n']
      have hfold := foldl_set_entries ⟨kv :: t, hes⟩
      simp only at hfold
      rw [hfold] at hmem
      have htext : marshalText ⟨kv :: t, hes⟩ ++ ['\n']
          = '{' :: (encodeEntries (kv :: t) ++ '}' :: ['\n']) := by
        simp [marshalText]
      rw [htext, decodeDocument, skipSpace_cons _ _ hbrace]
      rw [hr] at hmem ⊢
      have hne : ¬ ('"' = '}') := by decide
      simp only [if_true, skipSpace_cons _ _ hq, hne, if_false, hmem, hnl]

/-- What `json.Marshal` writes for a map, followed by a line feed, is read back by
`json.Unmarshal` as that map: a map object with the same entries, or the nil map. -/
theorem jsonUnmarshal_snapshotBytes (m : GoMap) :
    jsonUnmarshal (snapshotBytes m) = Except.ok m := by
  have hdec : utf8Decode (snapshotBytes m) = marshalValue m ++ ['\n'] := by
    unfold snapshotBytes
    rw [utf8Decode_encode_append]
    rfl
  cases m with
  | nil =>
    have hdoc : decodeDocument (marshalValue GoMap.nil ++ ['\n']) = some GoMap.nil := by decide
    simp [jsonUnmarshal, hdec, hdoc]
  | object d =>
    have hdoc : decodeDocument (marshalValue (GoMap.object d) ++ ['\n'])
        = some (GoMap.object d) := decodeDocument_marshalText d
    simp [jsonUnmarshal, hdec, hdoc]

theorem digitChar_toNat : ∀ d, d < 10 → (Nat.digitChar d).toNat = 48 + d := by decide

theorem parseUintLoop_append (ds es : List Char) (v₀ v : Nat)
    (h : parseUintLoop ds v₀ = (v, true)) :
    parseUintLoop (ds ++ es) v₀ = parseUintLoop es v := by
  induction ds generalizing v₀ with
  | nil =>
    simp only [parseUintLoop, Prod.mk.injEq, and_true] at h
    rw [h]; rfl
  | cons c cs ih =>
    simp only [List.cons_append, parseUintLoop] at h ⊢
    by_cases hd : 48 ≤ c.toNat ∧ c.toNat ≤ 57
    · rw [if_pos hd] at h ⊢
      by_cases h1 : v₀ ≥ maxUint64 / 10 + 1
      · rw [if_pos h1] at h
        simp at h
      · rw [if_neg h1] at h ⊢
        by_cases h2 : v₀ * 10 + (c.toNat - 48) > maxUint64
        · rw [if_pos h2] at h
          simp at h
        · rw [if_neg h2] at h ⊢
          exact ih _ h
    · rw [if_neg hd] at h
      simp at h

theorem parseUintLoop_digit (n : Nat) (hn : n ≤ maxUint64) :
    parseUintLoop [Nat.digitChar (n % 10)] (n / 10) = (n, true) := by
  have hd := digitChar_toNat (n % 10) (Nat.mod_lt _ (by decide))
  have hmax : maxUint64 = 18446744073709551615 := rfl
  simp only [parseUintLoop, hd]
  rw [if_pos (by omega), if_neg (by rw [hmax]; omega), if_neg (by rw [hmax]; omega)]
  congr 1
  omega

/-- The decimal digits `strconv.FormatInt` writes for a number that fits in 64 bits are
read back by `strconv.ParseUint` as that number. -/
theorem toDigitsCore_parse (fuel n : Nat) (acc : List Char) (hf : n < fuel)
    (hn : n ≤ maxUint64) :
    ∃ ds, Nat.toDigitsCore 10 fuel n acc = ds ++ acc
      ∧ parseUintLoop ds 0 = (n, true) ∧ ds ≠ []
      ∧ ∀ c ∈ ds, 48 ≤ c.toNat ∧ c.toNat ≤ 57 := by
  induction fuel generalizing n acc with
  | zero => omega
  | succ f ih =>
    have hd := digitChar_toNat (n % 10) (Nat.mod_lt _ (by decide))
    unfold Nat.toDigitsCore
    by_cases h0 : n / 10 = 0
    · simp only [h0, if_true]
      refine ⟨[Nat.digitChar (n % 10)], rfl, ?_, by simp, ?_⟩
      · have := parseUintLoop_digit n hn
        rw [h0] at this
        exact this
      · intro c hc
        simp only [List.mem_singleton] at hc
        rw [hc, hd]; omega
    · simp only [h0, if_false]
      have hmax : maxUint64 = 18446744073709551615 := rfl
      obtain ⟨ds, hds, hparse, _, hdig⟩ := ih (n / 10) (Nat.digitChar (n % 10) :: acc)
        (by omega) (by omega)
      refine ⟨ds ++ [Nat.digitChar (n % 10)], by rw [hds]; simp, ?_, by simp, ?_⟩
      · rw [parseUintLoop_append ds _ 0 (n / 10) hparse]
        exact parseUintLoop_digit n hn
      · intro c hc
        rcases List.mem_append.mp hc with h | h
        · exact hdig c h
        · simp only [List.mem_singleton] at h
          rw [h, hd]; omega

theorem replaceFrom_skip (old new : GoString) (n : Nat) (pre rest : GoString) :
    replaceFrom old new pre.length n (pre ++ rest) = replaceFrom old new 0 n rest := by
  induction pre with
  | nil => rfl
  | cons b t ih => simpa [replaceFrom] using ih

theorem replaceFrom_copy (h : Char) (ot new : GoString) (n : Nat) (pre rest : GoString)
    (hpre : ∀ c ∈ pre, c ≠ h) :
    replaceFrom (h :: ot) new 0 (n + 1) (pre ++ rest)
      = pre ++ replaceFrom (h :: ot) new 0 (n + 1) rest := by
  induction pre with
  | nil => rfl
  | cons c t ih =>
    have hc : c ≠ h := hpre c (List.mem_cons_self _ _)
    have hc' : ¬ h = c := fun hh => hc hh.symm
    have hp : ((h :: ot).isPrefixOf (c :: (t ++ rest))) = false := by
      simp [List.isPrefixOf, hc']
    simp only [List.cons_append, replaceFrom, List.append_eq, hp, Bool.false_eq_true, if_false]
    rw [ih (fun x hx => hpre x (List.mem_cons_of_mem _ hx))]

theorem replaceFrom_none (h : Char) (ot new : GoString) (n : Nat) (s : GoString)
    (hs : ∀ c ∈ s, c ≠ h) : replaceFrom (h :: ot) new 0 n s = s := by
  cases n with
  | zero => cases s <;> rfl
  | succ n =>
    have := replaceFrom_copy h ot new n s [] hs
    simpa [replaceFrom] using this

/-- The timestamp read off the name of a snapshot written at a Unix time that fits in 64
bits is that time. -/
theorem timestampOf_snapshotName (now : Int) (h0 : 0 ≤ now) (hmax : now ≤ 18446744073709551615) :
    timestampOf (snapshotName now) = now.toNat := by
  have hn : now.toNat ≤ maxUint64 := by
    have : maxUint64 = 18446744073709551615 := rfl
    omega
  obtain ⟨ds, hds, hparse, hne, hdig⟩ :=
    toDigitsCore_parse (now.toNat + 1) now.toNat [] (Nat.lt_succ_self _) hn
  have hfmt : FormatInt now = ds := by
    have : ¬ now < 0 := by omega
    simp only [FormatInt, this, if_false, Nat.toDigits]
    rw [hds, List.append_nil]
  have hG : ∀ c ∈ ds ++ ".json".data, c ≠ 'G' := by
    intro c hc
    rcases List.mem_append.mp hc with h | h
    · intro hh; rw [hh] at h; have := hdig _ h; revert this; decide
    · have hj : ∀ x ∈ ".json".data, x ≠ 'G' := by decide
      exact hj c h
  have hdot : ∀ c ∈ ds, c ≠ '.' := by
    intro c h hh
    rw [hh] at h; have := hdig _ h; revert this; decide
  have hr1 : Replace (snapshotName now) "GOAPP-".data [] 6 = ds ++ ".json".data := by
    have hform : snapshotName now = 'G' :: ("OAPP-".data ++ (ds ++ ".json".data)) := by
      simp [snapshotName, hfmt]
    have hp : ("GOAPP-".data.isPrefixOf ('G' :: ("OAPP-".data ++ (ds ++ ".json".data)))) = true := by
      simp [List.isPrefixOf]
    rw [Replace, hform, replaceFrom]
    simp only [hp, if_true, List.nil_append]
    have := replaceFrom_skip "GOAPP-".data [] 5 "OAPP-".data (ds ++ ".json".data)
    rw [show "GOAPP-".data.length - 1 = "OAPP-".data.length from rfl, this]
    exact replaceFrom_none 'G' "OAPP-".data [] 5 _ hG
  have hr2 : Replace (ds ++ ".json".data) ".json".data [] 4 = ds := by
    rw [Replace]
    have := replaceFrom_copy '.' "json".data [] 3 ds ".json".data hdot
    rw [show ".json".data = '.' :: "json".data from rfl] at this ⊢
    rw [this]
    have hend : replaceFrom ('.' :: "json".data) [] 0 (3 + 1) ('.' :: "json".data) = [] := by
      decide
    rw [hend, List.append_nil]
  unfold timestampOf
  rw [hr1, hr2]
  cases ds with
  | nil => exact absurd rfl hne
  | cons c cs => simp only [ParseUint, hparse]

theorem selectLatest_single (n : GoString) (hpos : 0 < timestampOf n) (fs : List DirEntry)
    (hall : ∀ e ∈ fs, isSnapshotFile e = true → e.name = n)
    (hex : ∃ e ∈ fs, isSnapshotFile e = true) :
    selectLatest fs ([], 0) = (n, timestampOf n) := by
  induction fs with
  | nil => obtain ⟨e, he, _⟩ := hex; simp at he
  | cons v t ih =>
    by_cases hs : isSnapshotFile v = true
    · have hn : v.name = n := hall v (List.mem_cons_self _ _) hs
      have hgt : timestampOf n > 0 := hpos
      simp only [selectLatest, hs, hn, hgt, if_true]
      apply selectLatest_of_le
      intro w hw hws
      rw [hall w (List.mem_cons_of_mem _ hw) hws]
    · simp only [selectLatest, hs, if_false]
      apply ih (fun e he => hall e (List.mem_cons_of_mem _ he))
      obtain ⟨e, he, hes⟩ := hex
      rcases List.mem_cons.mp he with h | h
      · rw [h] at hes; exact absurd hes hs
      · exact ⟨e, h, hes⟩

theorem readFile_of_mem (fs : List DirEntry) (e : DirEntry) (hnd : (fs.map DirEntry.name).Nodup)
    (he : e ∈ fs) (hreg : e.isDir = false) :
    readFile noFaults fs e.name = some e.content := by
  cases hfind : fs.find? (fun x => decide (x.name = e.name)) with
  | none =>
    have := List.find?_eq_none.mp hfind e he
    simp at this
  | some e' =>
    have hmem : e' ∈ fs := List.mem_of_find?_eq_some hfind
    have hname : e'.name = e.name := by
      have := List.find?_some hfind
      simpa using this
    have heq : e' = e := List.inj_on_of_nodup_map hnd hmem he hname
    subst heq
    simp [readFile, noFaults, hfind, hreg]

theorem openFile_some_regular (fs fs1 : List DirEntry) (filename : GoString)
    (hnd : (fs.map DirEntry.name).Nodup)
    (hopen : openFile noFaults fs filename = some fs1) :
    ∀ e ∈ fs, e.isDir = true → e.name ≠ filename := by
  intro e he hd hn
  cases hfind : fs.find? (fun x => decide (x.name = filename)) with
  | none =>
    have := List.find?_eq_none.mp hfind e he
    simp [hn] at this
  | some e' =>
    have hmem : e' ∈ fs := List.mem_of_find?_eq_some hfind
    have hname : e'.name = filename := by
      have := List.find?_some hfind
      simpa using this
    have heq : e' = e := List.inj_on_of_nodup_map hnd hmem he (hname.trans hn.symm)
    subst heq
    simp [openFile, noFaults, hfind, hd] at hopen

/-- A call of `Persist` without I/O failure that returns a file name was not skipped and
found no directory in its way. -/
theorem Persist_filename_ne_nil (p : FSPersistance) (now : Int) (fs : List DirEntry) (m : GoMap)
    (hnd : (fs.map DirEntry.name).Nodup)
    (hret : (Persist p noFaults now fs m).filename ≠ []) :
    p.latesHash ≠ snapshotHash m
      ∧ ∀ e ∈ fs, e.isDir = true → e.name ≠ snapshotName now := by
  have hne : p.latesHash ≠ snapshotHash m := by
    intro h
    rw [Persist_skip p noFaults now fs m h] at hret
    exact hret rfl
  refine ⟨hne, ?_⟩
  cases hopen : openFile noFaults fs (snapshotName now) with
  | none =>
    exfalso
    apply hret
    have h' : ¬ p.latesHash = fnv32a (utf8Encode (marshalValue m)) := hne
    simp [Persist, jsonMarshal, CheckIfHashIsSame, h', hopen]
  | some fs1 => exact openFile_some_regular fs fs1 _ hnd hopen

/-- After a call of `Persist` that is not skipped, the new file holds exactly the bytes
written when no longer file of that name was there before. -/
theorem Persist_written_content (p : FSPersistance) (now : Int) (fs : List DirEntry) (m : GoMap)
    (hnd : (fs.map DirEntry.name).Nodup)
    (hdir : ∀ e ∈ fs, e.isDir = true → e.name ≠ snapshotName now)
    (hne : p.latesHash ≠ snapshotHash m)
    (hshort : ∀ e ∈ fs, e.name = snapshotName now →
      e.content.length ≤ (snapshotBytes m).length) :
    { name := snapshotName now, isDir := false, content := snapshotBytes m }
      ∈ (Persist p noFaults now fs m).files := by
  obtain ⟨fs1, hopen, hnd1, hmem1, hreg1, hdir1⟩ :=
    openFile_noFaults fs (snapshotName now) hnd hdir
  have hsrc : ∀ e ∈ fs1, e.name = snapshotName now →
      e.content.length ≤ (snapshotBytes m).length := by
    intro e he hn
    cases hfind : fs.find? (fun x => decide (x.name = snapshotName now)) with
    | none =>
      simp only [openFile, noFaults, hfind, Bool.false_eq_true, if_false,
        Option.some.injEq] at hopen
      rw [← hopen] at he
      rcases List.mem_append.mp he with h | h
      · exact hshort e h hn
      · simp only [List.mem_singleton] at h
        rw [h]; simp
    | some e' =>
      have hreg : e'.isDir = false := by
        cases hd : e'.isDir
        · rfl
        · exact absurd (by simpa using List.find?_some hfind)
            (hdir e' (List.mem_of_find?_eq_some hfind) hd)
      simp only [openFile, noFaults, hfind, hreg, Bool.false_eq_true, if_false,
        Option.some.injEq] at hopen
      rw [← hopen] at he
      exact hshort e he hn
  rw [Persist_write p noFaults now fs fs1 m hne hopen rfl]
  have hnd2 : ((writeAtStart (snapshotBytes m) (snapshotName now) fs1).map DirEntry.name).Nodup := by
    rw [writeAtStart_map_name]; exact hnd1
  rw [DeleteOldFiles_eq_filter noFaults _ (snapshotName now) hnd2 rfl rfl]
  obtain ⟨e₀, he₀, hn₀⟩ := List.mem_map.mp hmem1
  have hreg₀ := hreg1 e₀ he₀ hn₀
  have hdrop : e₀.content.drop (snapshotBytes m).length = [] :=
    List.drop_eq_nil_of_le (hsrc e₀ he₀ hn₀)
  apply List.mem_filter.mpr
  constructor
  · simp only [writeAtStart, List.mem_map]
    refine ⟨e₀, he₀, ?_⟩
    simp only [hn₀, if_true, hdrop, List.append_nil, hreg₀]
  · simp [isDeleted]

/-- The round trip where no longer file stands in the way.  Take a directory with distinct
names, a clock reading after the epoch, and a call of `Persist` without I/O failure that
returns a file name.  If no file of that name with more bytes than the new snapshot was
in the directory before, `RestoreFromPersistance` (without I/O failure) right after the
call returns the mapping that was persisted. -/
theorem persist_restore_roundtrip (p : FSPersistance) (now : Int) (fs : List DirEntry)
    (m : GoMap) (hnd : (fs.map DirEntry.name).Nodup)
    (hpos : 0 < now) (hmax : now < 9223372036854775808)
    (hret : (Persist p noFaults now fs m).filename ≠ [])
    (hshort : ∀ e ∈ fs, e.name = snapshotName now →
      e.content.length ≤ (snapshotBytes m).length) :
    RestoreFromPersistance noFaults (Persist p noFaults now fs m).files = Except.ok m := by
  obtain ⟨hne, hdir⟩ := Persist_filename_ne_nil p now fs m hnd hret
  obtain ⟨_, _, hnd', hsnap, _⟩ := Persist_written p now fs m hnd hdir hne
  have hmem := Persist_written_content p now fs m hnd hdir hne hshort
  have hts : timestampOf (snapshotName now) = now.toNat :=
    timestampOf_snapshotName now (le_of_lt hpos) (by omega)
  have htpos : 0 < timestampOf (snapshotName now) := by rw [hts]; omega
  have hsel : selectLatest (Persist p noFaults now fs m).files ([], 0)
      = (snapshotName now, timestampOf (snapshotName now)) := by
    apply selectLatest_single _ htpos
    · intro e he hs
      have : e.name ∈ ((Persist p noFaults now fs m).files.filter
          (fun v => isSnapshotFile v)).map DirEntry.name :=
        List.mem_map_of_mem _ (List.mem_filter.mpr ⟨he, hs⟩)
      rw [hsnap] at this
      simpa using this
    · exact ⟨_, hmem, isSnapshotFile_snapshotName now _⟩
  have hread := readFile_of_mem _ _ hnd' hmem rfl
  have hnz : ¬ timestampOf (snapshotName now) = 0 := by omega
  have hread' : readFile noFaults (Persist p noFaults now fs m).files (snapshotName now)
      = some (snapshotBytes m) := hread
  have h1 : ¬ noFaults.openDir = true := by simp [noFaults]
  have h2 : ¬ noFaults.readdir = true := by simp [noFaults]
  unfold RestoreFromPersistance
  rw [if_neg h1, if_neg h2, hsel]
  simp only
  rw [if_neg hnz]
  unfold readSnapshot
  rw [hread']
  simp only [jsonUnmarshal_snapshotBytes]

/-- An instance of `persist_restore_roundtrip`: a non-ASCII mapping is persisted over an
older snapshot and next to a shorter file that already bears the new name. -/
theorem persist_restore_roundtrip_witness :
    (Persist NewPersistance noFaults 1700000000
        [regularFile "GOAPP-1699999999.json" "\x7b\"a\":\"b\"\x7d\n",
         regularFile "GOAPP-1700000000.json" "\x7b\x7d\n"]
        (GoMap.object ((Dict.empty.set "clé".data "a<b\n\"€\"".data).set "k".data []))).filename
      = "GOAPP-1700000000.json".data
    ∧ RestoreFromPersistance noFaults
        (Persist NewPersistance noFaults 1700000000
          [regularFile "GOAPP-1699999999.json" "\x7b\"a\":\"b\"\x7d\n",
           regularFile "GOAPP-1700000000.json" "\x7b\x7d\n"]
          (GoMap.object ((Dict.empty.set "clé".data "a<b\n\"€\"".data).set "k".data []))).files
      = Except.ok (GoMap.object ((Dict.empty.set "clé".data "a<b\n\"€\"".data).set "k".data [])) :=
  ⟨by decide,
    persist_restore_roundtrip NewPersistance 1700000000
      [regularFile "GOAPP-1699999999.json" "\x7b\"a\":\"b\"\x7d\n",
       regularFile "GOAPP-1700000000.json" "\x7b\x7d\n"]
      (GoMap.object ((Dict.empty.set "clé".data "a<b\n\"€\"".data).set "k".data []))
      (by decide) (by decide) (by decide) (by decide) (by decide)⟩

/-- C6: the code at a failing input.  A fresh engine persists `{"key1": "value1"}` at Unix
time 100 and, within the same second, the mapping left by a `DELETEALL`.  The second call
opens the file the first one wrote, which `os.OpenFile` does not truncate, writes the
empty object and a line feed (three bytes) over its start, and returns the file name;
the file keeps the tail of the older snapshot, and `RestoreFromPersistance` returns an
unmarshalling error instead of the empty mapping. -/
theorem persist_keeps_stale_tail :
    (persistRun noFaults NewPersistance []
        [(100, GoMap.object (Dict.empty.set "key1".data "value1".data))]).2
      = [regularFile "GOAPP-100.json" "\x7b\"key1\":\"value1\"\x7d\n"]
    ∧ (Persist
          (persistRun noFaults NewPersistance []
            [(100, GoMap.object (Dict.empty.set "key1".data "value1".data))]).1
          noFaults 100
          (persistRun noFaults NewPersistance []
            [(100, GoMap.object (Dict.empty.set "key1".data "value1".data))]).2
          (GoMap.object Dict.empty)).filename = "GOAPP-100.json".data
    ∧ (Persist
          (persistRun noFaults NewPersistance []
            [(100, GoMap.object (Dict.empty.set "key1".data "value1".data))]).1
          noFaults 100
          (persistRun noFaults NewPersistance []
            [(100, GoMap.object (Dict.empty.set "key1".data "value1".data))]).2
          (GoMap.object Dict.empty)).files
        = [regularFile "GOAPP-100.json" "\x7b\x7d\ney1\":\"value1\"\x7d\n"]
    ∧ RestoreFromPersistance noFaults
        (Persist
          (persistRun noFaults NewPersistance []
            [(100, GoMap.object (Dict.empty.set "key1".data "value1".data))]).1
          noFaults 100
          (persistRun noFaults NewPersistance []
            [(100, GoMap.object (Dict.empty.set "key1".data "value1".data))]).2
          (GoMap.object Dict.empty)).files
      = Except.error RestoreError.unmarshal := by
  decide
/-! ## The snapshot handed to the persistence worker -/

/-- What the worker receives for a tick followed by `CREATE` operations on a map object:
the mapping of the tick with those operations applied, because the channel holds the
reference of the map the operations write to. -/
theorem receivedDict_after_creates (s : ServiceX) (l : List (GoString × GoString))
    (hs : s.dict ≠ none) (hchan : s.persistance.persistanceChan = []) :
    (StartApiOperationListener (handleTick s) (createEvents l)).bind receivedDict
      = some (GoMap.object (l.foldl (fun m kv => m.set kv.1 kv.2) s.mapping)) := by
  obtain ⟨s', hrun, hm, hd, hp⟩ := mapping_createEvents (handleTick s) l hs
  rw [hrun, Option.some_bind]
  have hq : s'.persistance.persistanceChan = [s.dict] := by
    rw [hp]; simp [handleTick, hchan]
  have hd' : s'.dict = s.dict := hd
  cases hr : s.dict with
  | none => exact absurd hr hs
  | some r =>
    have hmap : s'.mapping = s'.heap r := by
      simp [ServiceX.mapping, ServiceX.deref, GoMap.content, hd', hr]
    simp only [receivedDict, hq, hr, ServiceX.deref]
    rw [← hmap, hm]
    rfl

/-- An event that is not a `CREATE` is processed without panic; it leaves the oldest
element of the channel in place and the map behind it as it is. -/
theorem listenerStep_keeps_queued (s : ServiceX) (e : Event) (a : Option Nat)
    (rest : List (Option Nat))
    (hne : ¬ e.isCreate) (hq : s.persistance.persistanceChan = a :: rest)
    (ha : ∀ r, a = some r → r < s.nextAddr) :
    ∃ s' rep, listenerStep s e = some (s', rep)
      ∧ (∃ rest', s'.persistance.persistanceChan = a :: rest')
      ∧ (∀ r, a = some r → r < s'.nextAddr)
      ∧ s'.deref a = s.deref a := by
  cases e with
  | tick =>
    exact ⟨handleTick s, none, rfl, ⟨rest ++ [s.dict], by simp [handleTick, hq]⟩, ha, rfl⟩
  | operation op =>
    have h0 : op.oper ≠ CREATE := hne
    by_cases hd : op.oper = DELETEALL
    · refine ⟨_, _, listenerStep_of_handleOperation s _ op _ (handleOperation_deleteAll s op hd),
        ⟨rest, hq⟩, ?_, ?_⟩
      · intro r hr
        have := ha r hr
        simp only
        omega
      · cases a with
        | none => rfl
        | some r =>
          have hna : r ≠ s.nextAddr := Nat.ne_of_lt (ha r rfl)
          simp [ServiceX.deref, Function.update, hna]
    · obtain ⟨rep, h⟩ := handleOperation_other s op h0 hd
      exact ⟨s, some rep, listenerStep_of_handleOperation s s op rep h, ⟨rest, hq⟩, ha, rfl⟩

theorem listener_keeps_queued (s : ServiceX) (evs : List Event) (a : Option Nat)
    (rest : List (Option Nat))
    (hne : ∀ e ∈ evs, ¬ e.isCreate) (hq : s.persistance.persistanceChan = a :: rest)
    (ha : ∀ r, a = some r → r < s.nextAddr) :
    (StartApiOperationListener s evs).bind receivedDict = some (s.deref a) := by
  induction evs generalizing s rest with
  | nil => simp [StartApiOperationListener, receivedDict, hq]
  | cons e es ih =>
    obtain ⟨s', rep, hstep, ⟨rest', hq'⟩, ha', hh⟩ :=
      listenerStep_keeps_queued s e a rest (hne e (List.mem_cons_self _ _)) hq ha
    simp only [StartApiOperationListener, hstep]
    rw [ih s' rest' (fun x hx => hne x (List.mem_cons_of_mem _ hx)) hq' ha', hh]

/-- What does hold of the hand-over.  From a state whose channel is empty and whose map
is the nil map or a map object in use, a tick followed by any events none of which is a
`CREATE` (`GET`, `DELETEALL`, further ticks) leaves the worker the map of the tick. -/
theorem receivedDict_without_create (s : ServiceX) (evs : List Event)
    (hchan : s.persistance.persistanceChan = [])
    (halloc : ∀ r, s.dict = some r → r < s.nextAddr)
    (hne : ∀ e ∈ evs, ¬ e.isCreate) :
    (StartApiOperationListener (handleTick s) evs).bind receivedDict
      = some (s.deref s.dict) :=
  listener_keeps_queued (handleTick s) evs s.dict [] hne (by simp [handleTick, hchan]) halloc

/-- C11: the code at a failing input.  The store holds `{"key1": "value1"}` when the timer
ticks; the listener then processes `CREATE key2 value2` before the worker takes the
snapshot off the channel.  The worker receives, and `Persist` writes, the mapping with
`key2` in it, not the mapping as it was at the tick. -/
theorem tick_snapshot_is_aliased :
    (handleTick (ServiceX.start (Dict.empty.set "key1".data "value1".data))).mapping
      = Dict.empty.set "key1".data "value1".data
    ∧ (StartApiOperationListener (ServiceX.start (Dict.empty.set "key1".data "value1".data))
          [Event.tick, Event.operation (createOp "key2".data "value2".data)]).bind receivedDict
      = some (GoMap.object
          ((Dict.empty.set "key1".data "value1".data).set "key2".data "value2".data))
    ∧ (StartApiOperationListener (ServiceX.start (Dict.empty.set "key1".data "value1".data))
          [Event.tick, Event.operation (createOp "key2".data "value2".data)]).bind receivedDict
      ≠ some (GoMap.object (Dict.empty.set "key1".data "value1".data))
    ∧ ((StartApiOperationListener (ServiceX.start (Dict.empty.set "key1".data "value1".data))
          [Event.tick, Event.operation (createOp "key2".data "value2".data)]).bind
        (fun s => workerStep s noFaults 100 [])).map (fun r => r.2.files)
      = some [regularFile "GOAPP-100.json"
          "\x7b\"key1\":\"value1\",\"key2\":\"value2\"\x7d\n"] := by
  decide

/-! ## Failed persistence cycles -/

/-- A call of `Persist` in which `os.OpenFile` fails changes nothing. -/
theorem Persist_open_failure (p : FSPersistance) (io : Faults) (now : Int)
    (fs : List DirEntry) (m : GoMap) (hopen : openFile io fs (snapshotName now) = none) :
    Persist p io now fs m = { filename := [], engine := p, files := fs } := by
  by_cases h : p.latesHash = snapshotHash m
  · exact Persist_skip p io now fs m h
  · have h' : ¬ p.latesHash = fnv32a (utf8Encode (marshalValue m)) := h
    simp [Persist, jsonMarshal, CheckIfHashIsSame, h', hopen]

theorem openFile_cases (io : Faults) (fs fs1 : List DirEntry) (filename : GoString)
    (hopen : openFile io fs filename = some fs1) :
    fs1 = fs ∨ fs1 = fs ++ [{ name := filename, isDir := false, content := [] }] := by
  unfold openFile at hopen
  by_cases h : io.openFile = true
  · simp [h] at hopen
  · have h' : io.openFile = false := by simpa using h
    cases hfind : fs.find? (fun e => decide (e.name = filename)) with
    | none =>
      simp only [h', hfind, Bool.false_eq_true, if_false, Option.some.injEq] at hopen
      exact Or.inr hopen.symm
    | some e =>
      by_cases hd : e.isDir = true
      · simp [h', hfind, hd] at hopen
      · have hd' : e.isDir = false := by simpa using hd
        simp only [h', hfind, hd', Bool.false_eq_true, if_false, Option.some.injEq] at hopen
        exact Or.inl hopen.symm

/-- A call of `Persist` in which the write fails returns the empty string, keeps the
engine (retained hash included) and deletes nothing: every other file of the directory is
there afterwards, unchanged, and nothing else is there but the file of the new name. -/
theorem Persist_write_failure (p : FSPersistance) (io : Faults) (now : Int)
    (fs : List DirEntry) (m : GoMap) (n : Nat) (hw : io.write = some n) :
    (Persist p io now fs m).filename = []
    ∧ (Persist p io now fs m).engine = p
    ∧ (∀ e ∈ fs, e.name ≠ snapshotName now → e ∈ (Persist p io now fs m).files)
    ∧ (∀ e ∈ (Persist p io now fs m).files, e.name ≠ snapshotName now → e ∈ fs) := by
  by_cases h : p.latesHash = snapshotHash m
  · rw [Persist_skip p io now fs m h]
    exact ⟨rfl, rfl, fun e he _ => he, fun e he _ => he⟩
  · cases hopen : openFile io fs (snapshotName now) with
    | none =>
      rw [Persist_open_failure p io now fs m hopen]
      exact ⟨rfl, rfl, fun e he _ => he, fun e he _ => he⟩
    | some fs1 =>
      have h' : ¬ p.latesHash = fnv32a (utf8Encode (marshalValue m)) := h
      have hP : Persist p io now fs m
          = { filename := [], engine := p,
              files := writeAtStart ((utf8Encode (marshalValue m) ++ [10]).take n)
                (snapshotName now) fs1 } := by
        simp [Persist, jsonMarshal, CheckIfHashIsSame, h', hopen, hw]
      rw [hP]
      refine ⟨rfl, rfl, ?_, ?_⟩
      · intro e he hne
        have he1 : e ∈ fs1 := by
          rcases openFile_cases io fs fs1 _ hopen with h1 | h1 <;> rw [h1]
          · exact he
          · exact List.mem_append_left _ he
        simp only [writeAtStart, List.mem_map]
        exact ⟨e, he1, by simp [hne]⟩
      · intro e he hne
        obtain ⟨e₀, he₀, hn, _, heq⟩ := mem_writeAtStart _ _ _ e he
        have hne0 : e₀.name ≠ snapshotName now := hn ▸ hne
        rw [heq hne0]
        rcases openFile_cases io fs fs1 _ hopen with h1 | h1
        · rw [h1] at he₀; exact he₀
        · rw [h1] at he₀
          rcases List.mem_append.mp he₀ with h2 | h2
          · exact h2
          · simp only [List.mem_singleton] at h2
            rw [h2] at hne0
            exact absurd rfl hne0

/-- C12: the code at a failing input.  The directory holds the snapshot `GOAPP-100.json`
that the engine wrote for `{"key1": "value1"}`.  At Unix time 200 `Persist` is called on
`{"key1": "value2"}` and the write fails after four bytes.  The call returns the empty
string and keeps the retained hash, but the file `os.OpenFile` created stays behind with
the four bytes in it: the directory holds two snapshot files instead of one, and
`RestoreFromPersistance` now reads the newer, broken one and fails. -/
theorem failed_write_leaves_file :
    (persistCalls NewPersistance []
        [(noFaults, 100, GoMap.object (Dict.empty.set "key1".data "value1".data))]).2
      = [regularFile "GOAPP-100.json" "\x7b\"key1\":\"value1\"\x7d\n"]
    ∧ (Persist
          (persistCalls NewPersistance []
            [(noFaults, 100, GoMap.object (Dict.empty.set "key1".data "value1".data))]).1
          (writeFails 4) 200
          (persistCalls NewPersistance []
            [(noFaults, 100, GoMap.object (Dict.empty.set "key1".data "value1".data))]).2
          (GoMap.object (Dict.empty.set "key1".data "value2".data))).filename = []
    ∧ (Persist
          (persistCalls NewPersistance []
            [(noFaults, 100, GoMap.object (Dict.empty.set "key1".data "value1".data))]).1
          (writeFails 4) 200
          (persistCalls NewPersistance []
            [(noFaults, 100, GoMap.object (Dict.empty.set "key1".data "value1".data))]).2
          (GoMap.object (Dict.empty.set "key1".data "value2".data))).engine.latesHash
        = snapshotHash (GoMap.object (Dict.empty.set "key1".data "value1".data))
    ∧ (Persist
          (persistCalls NewPersistance []
            [(noFaults, 100, GoMap.object (Dict.empty.set "key1".data "value1".data))]).1
          (writeFails 4) 200
          (persistCalls NewPersistance []
            [(noFaults, 100, GoMap.object (Dict.empty.set "key1".data "value1".data))]).2
          (GoMap.object (Dict.empty.set "key1".data "value2".data))).files.filter (fun v => isSnapshotFile v)
        = [regularFile "GOAPP-100.json" "\x7b\"key1\":\"value1\"\x7d\n",
           regularFile "GOAPP-200.json" "\x7b\"ke"]
    ∧ RestoreFromPersistance noFaults
        (Persist
          (persistCalls NewPersistance []
            [(noFaults, 100, GoMap.object (Dict.empty.set "key1".data "value1".data))]).1
          (writeFails 4) 200
          (persistCalls NewPersistance []
            [(noFaults, 100, GoMap.object (Dict.empty.set "key1".data "value1".data))]).2
          (GoMap.object (Dict.empty.set "key1".data "value2".data))).files
      = Except.error RestoreError.unmarshal := by
  decide

/-! ## The number of snapshot files -/

theorem Persist_openFails (p : FSPersistance) (now : Int) (fs : List DirEntry) (m : GoMap) :
    Persist p openFails now fs m = { filename := [], engine := p, files := fs } :=
  Persist_open_failure p openFails now fs m (by simp [openFile, openFails])

/-- Without I/O failure, a call of `Persist` that returns the empty string has left the
directory and the engine as they were. -/
theorem Persist_noFaults_unchanged (p : FSPersistance) (now : Int) (fs : List DirEntry)
    (m : GoMap) (hret : (Persist p noFaults now fs m).filename = []) :
    Persist p noFaults now fs m = { filename := [], engine := p, files := fs } := by
  by_cases h : p.latesHash = snapshotHash m
  · exact Persist_skip p noFaults now fs m h
  · cases hopen : openFile noFaults fs (snapshotName now) with
    | none => exact Persist_open_failure p noFaults now fs m hopen
    | some fs1 =>
      rw [Persist_write p noFaults now fs fs1 m h hopen rfl] at hret
      exact absurd hret (snapshotName_ne_nil now)

/-- One call that succeeds, is skipped or fails at `os.OpenFile` keeps the names of the
directory distinct and either leaves the directory as it was or leaves exactly one
snapshot file. -/
theorem Persist_keeps_one (p : FSPersistance) (io : Faults) (now : Int) (fs : List DirEntry)
    (m : GoMap) (hio : io = noFaults ∨ io = openFails)
    (hnd : (fs.map DirEntry.name).Nodup) :
    ((Persist p io now fs m).files.map DirEntry.name).Nodup
    ∧ ((Persist p io now fs m).files = fs
        ∨ ((Persist p io now fs m).files.filter (fun v => isSnapshotFile v)).length = 1) := by
  rcases hio with h | h <;> subst h
  · by_cases hret : (Persist p noFaults now fs m).filename = []
    · rw [Persist_noFaults_unchanged p now fs m hret]
      exact ⟨hnd, Or.inl rfl⟩
    · obtain ⟨hne, hdir⟩ := Persist_filename_ne_nil p now fs m hnd hret
      obtain ⟨_, _, hnd', hsnap, _⟩ := Persist_written p now fs m hnd hdir hne
      refine ⟨hnd', Or.inr ?_⟩
      have := congrArg List.length hsnap
      simpa using this
  · rw [Persist_openFails]
    exact ⟨hnd, Or.inl rfl⟩

/-- What does hold of the invariant.  From a directory with distinct names that holds at
most one snapshot file (as after a successful call), every sequence of `Persist` calls
each of which succeeds, is skipped or fails at `os.OpenFile` leaves at most one snapshot
file in the directory. -/
theorem at_most_one_snapshot_without_write_failure (p : FSPersistance) (fs : List DirEntry)
    (calls : List (Faults × Int × GoMap))
    (hio : ∀ c ∈ calls, c.1 = noFaults ∨ c.1 = openFails)
    (hnd : (fs.map DirEntry.name).Nodup)
    (hone : (fs.filter (fun v => isSnapshotFile v)).length ≤ 1) :
    ((persistCalls p fs calls).2.filter (fun v => isSnapshotFile v)).length ≤ 1 := by
  induction calls generalizing p fs with
  | nil => exact hone
  | cons c cs ih =>
    obtain ⟨hnd', hcase⟩ :=
      Persist_keeps_one p c.1 c.2.1 fs c.2.2 (hio c (List.mem_cons_self _ _)) hnd
    simp only [persistCalls]
    apply ih _ _ (fun x hx => hio x (List.mem_cons_of_mem _ hx)) hnd'
    rcases hcase with h | h
    · rw [h]; exact hone
    · exact Nat.le_of_eq h

/-- C13: the code at a failing input.  A first call of `Persist` succeeds at Unix time 100;
at time 200 a call on a changed mapping fails while writing, after four bytes; at time
300 a call on the first mapping is skipped by the hash comparison.  After each of the two
later calls the directory holds two snapshot files. -/
theorem failed_write_breaks_single_snapshot :
    (Persist NewPersistance noFaults 100 []
        (GoMap.object (Dict.empty.set "key1".data "value1".data))).filename = "GOAPP-100.json".data
    ∧ ((persistCalls NewPersistance []
          [(noFaults, 100, GoMap.object (Dict.empty.set "key1".data "value1".data)),
           (writeFails 4, 200, GoMap.object (Dict.empty.set "key1".data "value2".data))]).2.filter
        (fun v => isSnapshotFile v)).map DirEntry.name
      = ["GOAPP-100.json".data, "GOAPP-200.json".data]
    ∧ ((persistCalls NewPersistance []
          [(noFaults, 100, GoMap.object (Dict.empty.set "key1".data "value1".data)),
           (writeFails 4, 200, GoMap.object (Dict.empty.set "key1".data "value2".data)),
           (noFaults, 300, GoMap.object (Dict.empty.set "key1".data "value1".data))]).2.filter
        (fun v => isSnapshotFile v)).map DirEntry.name
      = ["GOAPP-100.json".data, "GOAPP-200.json".data]
    ∧ ¬ ((persistCalls NewPersistance []
          [(noFaults, 100, GoMap.object (Dict.empty.set "key1".data "value1".data)),
           (writeFails 4, 200, GoMap.object (Dict.empty.set "key1".data "value2".data)),
           (noFaults, 300, GoMap.object (Dict.empty.set "key1".data "value1".data))]).2.filter
        (fun v => isSnapshotFile v)).length ≤ 1 := by
  decide

/-! ## The `Create` handler -/

/-- A body that does not decode is answered with status 400 and nothing is submitted. -/
theorem Create_decode_error (s : ServiceX) (body : Bytes) (first : Nat) (e : JsonError)
    (h : jsonDecode body = Except.error e) :
    (Create s body first).outcome = HandlerOutcome.responded StatusBadRequest ∧
    (Create s body first).submitted = [] ∧
    (Create s body first).service = s := by
  unfold Create
  rw [h]
  exact ⟨rfl, rfl, rfl⟩

/-- The slice of keys is empty exactly for a map without entries, the nil map included. -/
theorem MapKeys_eq_nil_iff (m : GoMap) (first : Nat) :
    MapKeys m first = [] ↔ m.content.entries = [] := by
  unfold MapKeys
  rw [List.rotate_eq_nil_iff, List.map_eq_nil_iff]

/-- Every element of the slice of keys is a key of the map. -/
theorem get_of_mem_MapKeys (m : GoMap) (first : Nat) (k : GoString)
    (h : k ∈ MapKeys m first) : ∃ v, m.content.get? k = some v := by
  unfold MapKeys at h
  rw [List.mem_rotate] at h
  cases hl : lookupEntry k m.content.entries with
  | none => exact absurd h (lookupEntry_none_not_mem k _ hl)
  | some v => exact ⟨v, hl⟩

/-- A body that decodes to a map with an entry, `s.dict` being a map object: exactly one
`CREATE` is submitted, for a pair of the decoded map, the listener stores the pair and
the answer is status 201. -/
theorem Create_decoded_pair (s : ServiceX) (body : Bytes) (first : Nat) (m : GoMap)
    (h : jsonDecode body = Except.ok m) (hne : m.content.entries ≠ [])
    (hs : s.dict ≠ none) :
    ∃ k v, m.content.get? k = some v ∧
      (Create s body first).submitted = [createOp k v] ∧
      (Create s body first).outcome = HandlerOutcome.responded StatusCreated ∧
      handleOperation s (createOp k v)
        = some ((Create s body first).service, { respData := none, ack := true }) := by
  cases hk : MapKeys m first with
  | nil => exact absurd ((MapKeys_eq_nil_iff m first).mp hk) hne
  | cons key rest =>
    have hmem : key ∈ MapKeys m first := by rw [hk]; exact List.mem_cons_self _ _
    obtain ⟨v, hv⟩ := get_of_mem_MapKeys m first key hmem
    refine ⟨key, v, hv, ?_⟩
    cases hd : s.dict with
    | none => exact absurd hd hs
    | some r =>
      have hop := handleOperation_create s { oper := CREATE, key := key, value := v } r rfl hd
      simp only [Create, h, hk, hv, Option.getD_some, hop, if_true, createOp]
      exact ⟨trivial, trivial, trivial⟩

/-- A body that decodes to a map without entries: the index expression `MapKeys()[0]`
panics, before anything is submitted or answered. -/
theorem Create_decoded_empty (s : ServiceX) (body : Bytes) (first : Nat) (m : GoMap)
    (h : jsonDecode body = Except.ok m) (he : m.content.entries = []) :
    (Create s body first).outcome = HandlerOutcome.panicked ∧
    (Create s body first).submitted = [] ∧
    (Create s body first).service = s := by
  have hk : MapKeys m first = [] := (MapKeys_eq_nil_iff m first).mpr he
  simp only [Create, h, hk]
  exact ⟨trivial, trivial, trivial⟩

/-- C14: the code at a failing input.  The body of the empty JSON object decodes without
error into a map with no key, the slice `MapKeys()` is empty and the handler `Create`
panics at the index expression `MapKeys()[0]`: it answers neither with status 400 nor
with status 201 and submits no operation, whichever key order the runtime chooses.  The
body `null` does the same.  A body that does not decode (the empty body of
`TestCreateErr`) is answered with status 400 and the body of `TestCreate` with status
201 after one `CREATE`. -/
theorem create_panics_on_empty_object :
    jsonDecode (utf8Encode "\x7b\x7d".data) = Except.ok (GoMap.object Dict.empty) ∧
    (∀ first : Nat,
      (Create (ServiceX.start Dict.empty) (utf8Encode "\x7b\x7d".data) first).outcome
          = HandlerOutcome.panicked ∧
      (Create (ServiceX.start Dict.empty) (utf8Encode "\x7b\x7d".data) first).submitted = [] ∧
      MapKeys (GoMap.object Dict.empty) first = []) ∧
    (Create (ServiceX.start Dict.empty) (utf8Encode "null".data) 0).outcome
        = HandlerOutcome.panicked ∧
    (Create (ServiceX.start Dict.empty) (utf8Encode "".data) 0).outcome
        = HandlerOutcome.responded StatusBadRequest ∧
    (Create (ServiceX.start Dict.empty)
        (utf8Encode "\x7b\"key1\": \"value1\"\x7d".data) 0).outcome
        = HandlerOutcome.responded StatusCreated ∧
    (Create (ServiceX.start Dict.empty)
        (utf8Encode "\x7b\"key1\": \"value1\"\x7d".data) 0).submitted
        = [createOp "key1".data "value1".data] := by
  have hd : jsonDecode (utf8Encode "\x7b\x7d".data) = Except.ok (GoMap.object Dict.empty) := by
    decide
  refine ⟨hd, ?_, by decide, by decide, by decide, by decide⟩
  intro first
  have h := Create_decoded_empty (ServiceX.start Dict.empty) (utf8Encode "\x7b\x7d".data)
    first (GoMap.object Dict.empty) hd rfl
  exact ⟨h.1, h.2.1, (MapKeys_eq_nil_iff (GoMap.object Dict.empty) first).mpr rfl⟩

end KeyValueStore
